import Mathlib

/-!
A shallow embedding of the core of the RS_Opt repository
(`deep_insight/wavelet_dataset.py` and `deep_insight/networks.py`),
together with theorems settling the specification claims about it.

Modelling conventions:
* Python floats stored in arrays are modelled as exact rationals (`ℚ`);
  derived real-valued labels (`math.atan2`, square roots) live in `ℝ`.
* Fallible Python code (indexing errors, `NameError` on unbound locals,
  `print` + `exit(0)`, ...) is modelled with `Except PyErr`.
* NumPy arrays are nested lists; NumPy integer indexing wraps negative
  indices and raises `IndexError` out of range (`pyGet`); fancy indexing
  is `mapM` over the index list (`fancy`).
* IEEE division by zero does not raise: it produces a non-finite value
  (`inf`, `-inf` or `nan`).  Normalized wavelet entries are therefore
  `Option ℚ`, with `none` standing for any non-finite float (`fdiv`).
-/

namespace RSOpt

/-- Python-level failure modes relevant to the embedded code. -/
inductive PyErr
  | indexError      -- out-of-range (non-wrapping) index
  | nameError       -- unbound local variable
  | systemExit      -- `print(error message)` followed by `exit(0)`
  | typeError       -- e.g. indexing into a float
  | valueError      -- e.g. `np.random.choice` on an empty list, `math.log(0, 2)`
  | recursionError  -- unbounded retry recursion exceeding the interpreter limit
deriving DecidableEq, Repr

/-- A row of floats (e.g. a position sample `(x, y)`). -/
abbrev Vec := List ℚ

/-- A 2-D float array, indexed `[frequency_band][channel]`. -/
abbrev Mat := List (List ℚ)

/-- A 3-D float array, indexed `[time][frequency_band][channel]`. -/
abbrev Arr3 := List Mat

/-- Python/NumPy single-element indexing `l[i]`: a negative index wraps
once from the end; anything still out of range raises `IndexError`. -/
def pyGet (l : List α) (i : Int) : Except PyErr α :=
  let j : Int := if i < 0 then i + l.length else i
  if h : 0 ≤ j ∧ j.toNat < l.length then .ok (l.get ⟨j.toNat, h.2⟩) else .error .indexError

/-- NumPy fancy indexing `l[idxs]` along the first axis. -/
def fancy (l : List α) (idxs : List Int) : Except PyErr (List α) :=
  idxs.mapM (pyGet l)

/-- `np.arange(a, b)` over integers. -/
def arange (a b : Int) : List Int :=
  (List.range (b - a).toNat).map (fun k : ℕ => a + (k : Int))

/-- `math.atan2 y x`, the argument of the complex number `x + y*I`. -/
noncomputable def atan2 (y x : ℝ) : ℝ :=
  Complex.arg { re := x, im := y }

/-- Modelled from the spec: the function `getspeed` is imported from
`utils/misc.py`, a file of this repository that is not under `src/`.
The spec defines the speed label as "the Euclidean distance between
last-time-step positions of current and previous windows".  -/
noncomputable def getspeed (a b : Vec) : ℝ :=
  Real.sqrt (((List.zipWith (fun x y => (x - y) * (x - y)) a b).sum : ℚ) : ℝ)

/-- One entry of the label tuple produced by `get_output_sample`:
the `position` branch appends a raw row of the target array, the
`direction` / `head_direction` / `speed` branches append a float. -/
inductive OutVal
  | vec (v : Vec)
  | scalar (r : ℝ)

/-- The loop-carried local variables `(cut_data_m, pcdm)` of
`WaveletDataset.get_output_sample`: both are bound (together) only by
the `position` branch, and are unbound (`none`) before the first
`position` target has been processed. -/
abbrev LoopSt := Option (Vec × Vec)

/-- One iteration of the target loop in
`WaveletDataset.get_output_sample` (wavelet_dataset.py lines 151-183):
slices the target's own array over both windows, then dispatches on the
target name.  `direction`, `head_direction` and `speed` read the locals
`cut_data_m` / `pcdm` left behind by the `position` branch; if those are
unbound this is a Python `NameError`.  An unknown name prints an error
and calls `exit(0)`. -/
noncomputable def out_step (name : String) (out : List Vec)
    (cutRange prevCutRange : List Int) (st : LoopSt) :
    Except PyErr (OutVal × LoopSt) := do
  let cut_data ← fancy out cutRange
  let pcd ← fancy out prevCutRange
  if name = "position" then do
    let pcdm ← pyGet pcd (-1)
    let cut_data_m ← pyGet cut_data (-1)
    .ok (.vec cut_data_m, some (cut_data_m, pcdm))
  else if name = "head_direction" then
    match st with
    | none => .error .nameError
    | some (cut_data_m, pcdm) => do
      let y1 ← pyGet cut_data_m 1
      let y0 ← pyGet pcdm 1
      let x1 ← pyGet cut_data_m 0
      let x0 ← pyGet pcdm 0
      .ok (.scalar (atan2 ((y1 - y0 : ℚ) : ℝ) ((x1 - x0 : ℚ) : ℝ)), st)
  else if name = "direction" then
    match st with
    | none => .error .nameError
    | some (cut_data_m, pcdm) => do
      let y1 ← pyGet cut_data_m 1
      let y0 ← pyGet pcdm 1
      let x1 ← pyGet cut_data_m 0
      let x0 ← pyGet pcdm 0
      .ok (.scalar (atan2 ((y1 - y0 : ℚ) : ℝ) ((x1 - x0 : ℚ) : ℝ)), st)
  else if name = "speed" then
    match st with
    | none => .error .nameError
    | some (cut_data_m, pcdm) =>
      .ok (.scalar (getspeed cut_data_m pcdm), st)
  else
    .error .systemExit

/-- The target loop of `WaveletDataset.get_output_sample`, with the
locals `cut_data_m` / `pcdm` made explicit as threaded state. -/
noncomputable def out_loop :
    List (String × List Vec) → List Int → List Int → LoopSt →
    Except PyErr (List OutVal × LoopSt)
  | [], _, _, st => .ok ([], st)
  | (name, out) :: rest, cr, pcr, st => do
    let (v, st1) ← out_step name out cr pcr st
    let (vs, st2) ← out_loop rest cr pcr st1
    .ok (v :: vs, st2)

/-- `WaveletDataset.get_output_sample(cut_range, prev_cut_range)`:
`targets` pairs each configured loss-function name with its output
array (`self.outputs`, in the same order as `self.loss_functions`). -/
noncomputable def get_output_sample (targets : List (String × List Vec))
    (cr pcr : List Int) : Except PyErr (List OutVal) :=
  (out_loop targets cr pcr none).map Prod.fst

/-- `output_sample[0]` followed by row indexing: fails with `IndexError`
on an empty tuple and with `TypeError` when the first label is a float
(only `position` labels are rows). -/
def head_vec (os : List OutVal) : Except PyErr Vec := do
  let o ← pyGet os 0
  match o with
  | .vec v => .ok v
  | .scalar _ => .error .typeError

/-- Elementwise difference `v - c` of two NumPy 1-D arrays; position
labels are 2-vectors, any other shape fails to broadcast against the
2-vector centre used by the `inside` / `outside` rules. -/
def vec_sub2 (v c : Vec) : Except PyErr Vec :=
  if v.length = c.length then .ok (List.zipWith (fun a b => a - b) v c)
  else .error .valueError

/-- `np.linalg.norm w < r` for a nonnegative radius `r`, decided on the
squared norm (`norm w < r` iff `sum of squares < r * r`, both sides of
the original comparison being nonnegative). -/
def np_norm_lt (w : Vec) (r : ℚ) : Bool :=
  decide ((w.map (fun x => x * x)).sum < r * r)

/-- `WaveletDataset._accept_output(output_sample, rule_keyword)`
(wavelet_dataset.py lines 185-202): the region filter applied to the
first label (the position row).  Float literals of the source are
written as the decimal rationals they denote.  An unrecognized keyword
prints an error and calls `exit(0)`. -/
def accept_output (os : List OutVal) (kw : Option String) : Except PyErr Bool :=
  if kw = some "top" then do
    let v ← head_vec os
    let y ← pyGet v 1
    .ok (decide ((1 : ℚ)/10 < y))
  else if kw = some "bottom" then do
    let v ← head_vec os
    let y ← pyGet v 1
    .ok (decide (y ≤ (1 : ℚ)/10))
  else if kw = some "inside" then do
    let v ← head_vec os
    let d ← vec_sub2 v [264/10000, 2185/10000]
    .ok (np_norm_lt d (15/100))
  else if kw = some "outside" then do
    let v ← head_vec os
    let d ← vec_sub2 v [264/10000, 2185/10000]
    .ok (! np_norm_lt d (15/100))
  else if kw = some "left" then do
    let v ← head_vec os
    let x ← pyGet v 0
    .ok (decide (x < (400 : ℚ)))
  else if kw = some "right" then do
    let v ← head_vec os
    let x ← pyGet v 0
    .ok (decide ((400 : ℚ) ≤ x))
  else if kw = none then
    .ok true
  else
    .error .systemExit

/-- IEEE float division: dividing a finite float by `0.0` raises
nothing and yields a non-finite value (`inf`, `-inf` or `nan`),
modelled as `none`; otherwise the quotient is finite and exact. -/
def fdiv (x y : ℚ) : Option ℚ :=
  if y = 0 then none else some (x / y)

/-- Elementwise `(row - est_mean) / est_std` for one time step of the
windowed wavelet array (NumPy broadcast of the per-(frequency, channel)
statistics over time). -/
def norm_mat (row m s : Mat) : List (List (Option ℚ)) :=
  List.zipWith
    (fun xr ms_r => List.zipWith (fun x ms => fdiv (x - ms.1) ms.2) xr (List.zip ms_r.1 ms_r.2))
    row (List.zip m s)

/-- `np.transpose(a, axes=(2, 0, 1))` of a rectangular 3-D array:
`result[c][t][f] = a[t][f][c]`. -/
def transpose201 (a : List (List (List α))) (dflt : α) : List (List (List α)) :=
  let T := a.length
  let F := (a.headD []).length
  let C := ((a.headD []).headD []).length
  (List.range C).map (fun c =>
    (List.range T).map (fun t =>
      (List.range F).map (fun f => ((a.getD t []).getD f []).getD c dflt)))

/-- `WaveletDataset.get_input_sample(cut_range)` (wavelet_dataset.py
lines 135-149): slice the wavelet array over the window, normalize by
the stored statistics (no zero guard on `est_std`), transpose to
`[channel, time, frequency]` and append a trailing singleton axis. -/
def get_input_sample (w : Arr3) (est_mean est_std : Mat) (cutRange : List Int) :
    Except PyErr (List (List (List (List (Option ℚ))))) := do
  let cut_data ← fancy w cutRange
  let nrm := cut_data.map (fun row => norm_mat row est_mean est_std)
  .ok ((transpose201 nrm none).map (fun p => p.map (fun q => q.map (fun x => [x]))))

/-- The state of one `WaveletDataset` view after construction: the
options and arrays that `__getitem__` reads (all frozen). -/
structure DS where
  wavelets : Arr3
  targets : List (String × List Vec)
  cv_indices : List Int
  sample_size : Nat
  shuffle : Bool
  random_batches : Bool
  train_half : Option String
  est_mean : Mat
  est_std : Mat

/-- `np.random.choice(l)`: one uniformly random element, driven here by
an externally supplied random number `r`; empty input raises. -/
def np_choice (r : Nat) (l : List α) : Except PyErr α :=
  if h : 0 < l.length then .ok (l.get ⟨r % l.length, Nat.mod_lt _ h⟩)
  else .error .valueError

/-- Steps 1-2 of `WaveletDataset.__getitem__` (wavelet_dataset.py lines
74-99): resolve the requested index through `cv_indices` (or a random
draw under `shuffle`), build the current and previous window ranges,
and optionally replace both by ranges at a freshly drawn random start
under `random_batches`.  `a` counts retry attempts; the random stream
`rng` is consumed two draws per attempt. -/
def resolve_ranges (ds : DS) (rng : Nat → Nat) (a : Nat) (og : Int) :
    Except PyErr (List Int × List Int) := do
  let idx ← if ds.shuffle then np_choice (rng (2*a)) ds.cv_indices
            else pyGet ds.cv_indices og
  let base := (arange idx (idx + ds.sample_size),
               arange (idx - 1) (idx + ds.sample_size - 1))
  if ds.random_batches then do
    let start_index ← np_choice (rng (2*a + 1)) ds.cv_indices
    .ok (arange start_index (start_index + ds.sample_size),
         arange (start_index - 1) (start_index + ds.sample_size - 1))
  else
    .ok base

/-- `WaveletDataset.modify_out_sample`: returns the output sample
unchanged ("Usually just return output sample"). -/
def modify_out_sample (os : List OutVal) : List OutVal := os

/-- `WaveletDataset.__getitem__(og)` (wavelet_dataset.py lines 74-99),
with explicit recursion fuel: resolve the window, derive the label
tuple, and if the region filter rejects it retry by re-invoking the
whole lookup with the originally requested index `og`
(`return self.__getitem__(og_idx)`); otherwise normalize the input
window and return the pair (`modify_out_sample` is the identity). -/
noncomputable def getitem (ds : DS) (rng : Nat → Nat) :
    Nat → Nat → Int →
    Except PyErr (List (List (List (List (Option ℚ)))) × List OutVal)
  | 0, _, _ => .error .recursionError
  | fuel+1, a, og => do
    let rs ← resolve_ranges ds rng a og
    let output_sample ← get_output_sample ds.targets rs.1 rs.2
    let acc ← accept_output output_sample ds.train_half
    if acc then do
      let input_sample ← get_input_sample ds.wavelets ds.est_mean ds.est_std rs.1
      .ok (input_sample, modify_out_sample output_sample)
    else
      getitem ds rng fuel (a+1) og

/-- `np.median` of a 1-D float array: sort, take the middle element, or
the mean of the two middle elements at even length. -/
def median (l : List ℚ) : ℚ :=
  let s := l.insertionSort (· ≤ ·)
  if l.length % 2 = 1 then s.getD (l.length / 2) 0
  else (s.getD (l.length / 2 - 1) 0 + s.getD (l.length / 2) 0) / 2

/-- `np.median(a, axis=0)` of a rectangular 3-D array: the elementwise
median over the first axis. -/
def median_axis0 (a : Arr3) : Mat :=
  let F := (a.headD []).length
  let C := ((a.headD []).headD []).length
  (List.range F).map (fun f =>
    (List.range C).map (fun c =>
      median (a.map (fun mt => (mt.getD f []).getD c 0))))

/-- Elementwise `abs (x - m)` of two equally shaped 2-D arrays. -/
def mat_abs_sub (x m : Mat) : Mat :=
  List.zipWith (fun xr mr => List.zipWith (fun a b => |a - b|) xr mr) x m

/-- The statistics lines of `WaveletDataset.prepare_data_generator`
(wavelet_dataset.py lines 112-126): select the split's index set, then
compute `est_mean` / `est_std` from the rows of the wavelet array at
`training_indices` — for the testing view exactly as for the training
view.  (The trailing dummy `__getitem__(0)` used only to record the
input shape is modelled in `mk_wavelet_dataset`.) -/
def prepare_data_generator (w : Arr3) (tIdx teIdx : List Int) (training : Bool) :
    Except PyErr (List Int × Mat × Mat) := do
  let cv := if training then tIdx else teIdx
  let sel ← fancy w tIdx
  let m := median_axis0 sel
  let s := median_axis0 (sel.map (fun row => mat_abs_sub row m))
  .ok (cv, m, s)

/-- The list compared against in the `__init__` keyword check. -/
def known_halves4 : List String := ["top", "bottom", "inside", "outside"]

/-- The guard of the keyword check in `WaveletDataset.__init__`
(wavelet_dataset.py lines 51-53).  The Python condition is
`(train_half is not None) and (train_half in [...] == False)`, whose
second conjunct is the chained comparison
`(train_half in [...]) and ([...] == False)`; a nonempty list never
equals `False`, so that conjunct — and hence the whole guard — is
identically false and the check never fires. -/
def init_half_guard (th : Option String) : Bool :=
  match th with
  | none => false
  | some s => decide (s ∈ known_halves4) && false

/-- `WaveletDataset.__init__` (wavelet_dataset.py lines 39-70): run the
(inert) keyword guard, compute the index set and the normalization
statistics, then fetch the dummy sample `self.__getitem__(0)` that
`prepare_data_generator` uses to record the input shape. -/
noncomputable def mk_wavelet_dataset (w : Arr3) (targets : List (String × List Vec))
    (tIdx teIdx : List Int) (ss : Nat) (shuffle rb : Bool) (training : Bool)
    (th : Option String) (rng : Nat → Nat) (fuel : Nat) : Except PyErr DS := do
  if init_half_guard th then .error .systemExit
  else do
    let (cv, m, s) ← prepare_data_generator w tIdx teIdx training
    let ds : DS := ⟨w, targets, cv, ss, shuffle, rb, th, m, s⟩
    let _ ← getitem ds rng fuel 0 0
    .ok ds

/-- `create_train_and_test_datasets` (wavelet_dataset.py lines 13-33):
construct the training view with the given `train_half`, map the
keyword to its complementary region (unknown keyword: error + exit),
and construct the testing view with the complement. -/
noncomputable def create_train_and_test_datasets (w : Arr3)
    (targets : List (String × List Vec)) (tIdx teIdx : List Int) (ss : Nat)
    (shuffle rb : Bool) (th : Option String) (rng : Nat → Nat) (fuel : Nat) :
    Except PyErr (DS × DS) := do
  let training_generator ← mk_wavelet_dataset w targets tIdx teIdx ss shuffle rb true th rng fuel
  let th2 ← match th with
    | none => pure (none : Option String)
    | some s =>
      if s = "top" then pure (some "bottom")
      else if s = "bottom" then pure (some "top")
      else if s = "inside" then pure (some "outside")
      else if s = "outside" then pure (some "inside")
      else if s = "left" then pure (some "right")
      else if s = "right" then pure (some "left")
      else .error .systemExit
  let testing_generator ← mk_wavelet_dataset w targets tIdx teIdx ss shuffle rb false th2 rng fuel
  .ok (training_generator, testing_generator)

/-! ### `deep_insight/networks.py` — `Standard_Decoder`

The decoder embedding records, for every sub-module instantiated by
`Standard_Decoder.__init__`, whether it exposes `weight` / `bias`
parameter tensors and how those were initialized.  PyTorch's module
constructors (`nn.Conv2d`, `nn.Linear`) initialize their parameters
with the library default (Kaiming-uniform weights, uniform biases),
recorded as `pytorchDefault`; the repository's `initialise_layer`
helper replaces that with Kaiming-normal weights and zero biases.
Channel/feature-size arithmetic plays no role in the claims and is not
recorded. -/

/-- How a weight tensor was initialized. -/
inductive WInit
  | pytorchDefault   -- the library constructor's own scheme (Kaiming-uniform)
  | kaimingNormal    -- `nn.init.kaiming_normal_`
deriving DecidableEq, Repr

/-- How a bias tensor was initialized. -/
inductive BInit
  | pytorchDefault   -- the library constructor's own scheme (uniform)
  | zeros            -- `nn.init.zeros_`
deriving DecidableEq, Repr

/-- One sub-module created during decoder construction. -/
structure Layer where
  name : String
  hasWeight : Bool
  hasBias : Bool
  wInit : WInit
  bInit : BInit
deriving DecidableEq, Repr

/-- A freshly constructed `TimeDistributed(nn.Conv2d(...))`. -/
def mkConv2d (nm : String) : Layer :=
  ⟨nm, true, true, .pytorchDefault, .pytorchDefault⟩

/-- A freshly constructed `nn.Linear(...)`. -/
def mkLinear (nm : String) : Layer :=
  ⟨nm, true, true, .pytorchDefault, .pytorchDefault⟩

/-- A parameterless module (activation, dropout, noise, permute,
flatten): exposes neither `weight` nor `bias`. -/
def mkPlain (nm : String) : Layer :=
  ⟨nm, false, false, .pytorchDefault, .pytorchDefault⟩

/-- `Standard_Decoder.initialise_layer` (networks.py lines 179-184):
zero the bias if the module has one, then Kaiming-normal the weight if
the module has one. -/
def initialise_layer (l : Layer) : Layer :=
  let l1 := if l.hasBias then { l with bInit := BInit.zeros } else l
  if l1.hasWeight then { l1 with wInit := WInit.kaimingNormal } else l1

/-- Python `round(H / 2)` for a nonnegative integer `H`: floats round
half to even. -/
def pyRoundHalf (H : Nat) : Nat :=
  if H % 2 = 0 then H / 2
  else if (H / 2) % 2 = 0 then H / 2 else H / 2 + 1

theorem pyRoundHalf_lt {H : Nat} (h : 2 < H) : pyRoundHalf H < H := by
  unfold pyRoundHalf
  split <;> [omega; (split <;> omega)]

/-- The two `conv_tsr` / `conv_fr` stages and their activations created
per iteration of the first loop of `Standard_Decoder.__init__`. -/
def conv_tsr_layers (n : Nat) : List Layer :=
  ((List.range n).map (fun nct =>
    [mkConv2d ("conv_tsr_" ++ toString nct),
     mkPlain ("conv_tsr_" ++ toString nct ++ "_activation"),
     mkConv2d ("conv_fr_" ++ toString nct),
     mkPlain ("conv_fr_" ++ toString nct ++ "_activation")])).flatten

/-- The `while H > 2` loop of `Standard_Decoder.__init__`: one strided
convolution plus activation per iteration, `H` replaced by
`round(H/2)` each time. -/
def conv_after_layers (H k : Nat) : List Layer :=
  if h : 2 < H then
    mkConv2d ("conv_after_tsr_" ++ toString k) ::
    mkPlain ("conv_after_tsr_" ++ toString k ++ "_activation") ::
    conv_after_layers (pyRoundHalf H) (k + 1)
  else []
termination_by H
decreasing_by exact pyRoundHalf_lt h

/-- One fully connected head (the per-target loop body of
`Standard_Decoder.__init__`): `num_dense` blocks of linear + activation
+ dropout, then the final linear projection. -/
def head_layers (key : String) (numDense : Nat) : List Layer :=
  ((List.range numDense).map (fun d =>
    [mkLinear ("target_" ++ key ++ "_fc_" ++ toString d),
     mkPlain ("target_" ++ key ++ "_fc_" ++ toString d ++ "_activation"),
     mkPlain ("target_" ++ key ++ "_fc_" ++ toString d ++ "_dropout")])).flatten ++
  [mkLinear ("target_" ++ key ++ "_fc_" ++ toString numDense)]

/-- The configuration options read by `Standard_Decoder.__init__`. -/
structure DecoderOpts where
  num_convs_tsr : Nat
  num_dense : Nat
  loss_keys : List String   -- `tg.loss_functions.keys()`
  output_dims : List Nat    -- `output.shape[1]` for each of `tg.outputs`
deriving Repr

/-- A constructed decoder: its input shape and every sub-module
instantiated during `__init__`. -/
structure DecoderModel where
  input_shape : List Nat
  layers : List Layer
deriving Repr

/-- `self.input_shape[1]` is a power of two, i.e.
`math.log(input_shape[1], 2).is_integer()` read in exact arithmetic
(`log2 n` is an integer exactly when `n` is a power of two). -/
def isPow2 (n : Nat) : Bool :=
  (List.range (n + 1)).any (fun k => n = 2 ^ k)

/-- `Standard_Decoder.__init__` (networks.py lines 19-146): check that
the time-window length `input_shape[1]` is a power of two
(`math.log(0, 2)` would itself raise, a non-power-of-two prints an
error and calls `exit(0)`), then instantiate the noise layer, the
dropout layer, the convolutional trunk, the permute/flatten helpers and
the per-target fully connected heads.  `initialise_layer` is defined on
the class but never invoked here. -/
def standard_decoder_init (input_shape : List Nat) (tg : DecoderOpts) :
    Except PyErr DecoderModel := do
  let t ← pyGet input_shape 1
  if t = 0 then .error .valueError
  else if ! isPow2 t then .error .systemExit
  else do
    let _in_channels ← pyGet input_shape 3
    let H0 ← pyGet input_shape 0
    let layers :=
      [mkPlain "gaussian_noise", mkPlain "dropout"] ++
      conv_tsr_layers tg.num_convs_tsr ++
      [mkPlain "permute"] ++
      conv_after_layers H0 0 ++
      [mkPlain "flatten"] ++
      ((List.zip tg.loss_keys tg.output_dims).map
        (fun kv => head_layers kv.1 tg.num_dense)).flatten
    .ok ⟨input_shape, layers⟩

/-! ### The similarity penalty of `Standard_Decoder.forward` -/

/-- `torch.nn.CosineSimilarity` on a pair of feature vectors:
`x · y / max(|x| * |y|, eps)` with the default `eps = 1e-8`. -/
noncomputable def cosine_similarity (a b : List ℝ) : ℝ :=
  (List.zipWith (fun x y => x * y) a b).sum /
    max (Real.sqrt ((a.map (fun x => x * x)).sum) *
         Real.sqrt ((b.map (fun x => x * x)).sum))
        (1 / 100000000)

/-- `torch.sum(torch.abs(self.sim(A, B)))` for two heads' batches of
pre-final-layer feature vectors (one row per batch element; the cosine
is taken along the feature dimension). -/
noncomputable def pair_similarity (A B : List (List ℝ)) : ℝ :=
  (List.zipWith (fun a b => |cosine_similarity a b|) A B).sum

/-- The similarity accumulation of `Standard_Decoder.forward` under
`return_co_sim=True` (networks.py lines 166-174): starting from a zero
tensor, loop `i` over all heads and `j` over the later heads, adding
the batch-summed absolute cosine similarity of the two heads'
pre-final-layer features.  `fs` lists `final_fully_connected`. -/
noncomputable def forward_similarity (fs : List (List (List ℝ))) : ℝ :=
  (List.range fs.length).foldl
    (fun acc i =>
      (List.range' (i + 1) (fs.length - (i + 1))).foldl
        (fun acc2 j =>
          if i ≠ j then acc2 + pair_similarity (fs.getD i []) (fs.getD j [])
          else acc2)
        acc)
    0

/-! ### Theorems -/

theorem foldl_ext (f f' : ℝ → ℕ → ℝ) :
    ∀ (l : List ℕ) (a : ℝ), (∀ b x, x ∈ l → f b x = f' b x) →
      l.foldl f a = l.foldl f' a
  | [], _, _ => rfl
  | x :: xs, a, h => by
    simp only [List.foldl_cons]
    rw [h a x (by simp)]
    exact foldl_ext f f' xs (f' a x) (fun b y hy => h b y (by simp [hy]))

theorem foldl_add_eq (g : ℕ → ℝ) :
    ∀ (l : List ℕ) (a : ℝ), l.foldl (fun acc x => acc + g x) a = a + (l.map g).sum
  | [], a => by simp
  | x :: xs, a => by
    simp only [List.foldl_cons, List.map_cons, List.sum_cons]
    rw [foldl_add_eq g xs (a + g x)]
    ring

theorem list_range_map_sum (g : ℕ → ℝ) :
    ∀ n : ℕ, ((List.range n).map g).sum = ∑ i ∈ Finset.range n, g i
  | 0 => by simp
  | n + 1 => by
    rw [List.range_succ, Finset.sum_range_succ, List.map_append,
      List.sum_append, list_range_map_sum g n]
    simp

theorem list_range'_map_sum (g : ℕ → ℝ) :
    ∀ (b a : ℕ), ((List.range' a b).map g).sum = ∑ j ∈ Finset.Ico a (a + b), g j
  | 0, a => by simp
  | b + 1, a => by
    rw [List.range'_succ, List.map_cons, List.sum_cons, list_range'_map_sum g b (a + 1),
      Finset.sum_Ico_eq_sum_range, Finset.sum_Ico_eq_sum_range]
    have h1 : a + 1 + b - (a + 1) = b := by omega
    have h2 : a + (b + 1) - a = b + 1 := by omega
    rw [h1, h2, Finset.sum_range_succ']
    have h3 : ∀ i : ℕ, a + 1 + i = a + (i + 1) := by omega
    simp only [h3, add_zero]
    exact add_comm _ _

theorem forward_similarity_eq (fs : List (List (List ℝ))) :
    forward_similarity fs =
      ∑ i ∈ Finset.range fs.length, ∑ j ∈ Finset.Ico (i + 1) fs.length,
        pair_similarity (fs.getD i []) (fs.getD j []) := by
  unfold forward_similarity
  rw [foldl_ext _
    (fun acc i => acc +
      ((List.range' (i + 1) (fs.length - (i + 1))).map
        (fun j => pair_similarity (fs.getD i []) (fs.getD j []))).sum)]
  · rw [foldl_add_eq, zero_add, list_range_map_sum]
    refine Finset.sum_congr rfl (fun i _ => ?_)
    rw [list_range'_map_sum]
    have : i + 1 + (fs.length - (i + 1)) = max (i + 1) fs.length := by omega
    rw [this]
    rcases le_or_lt (i + 1) fs.length with h | h
    · rw [max_eq_right h]
    · rw [max_eq_left h.le, Finset.Ico_eq_empty (by omega), Finset.Ico_eq_empty (by omega)]
  · intro b i _
    rw [foldl_ext _
      (fun acc2 j => acc2 + pair_similarity (fs.getD i []) (fs.getD j []))]
    · rw [foldl_add_eq]
    · intro c j hj
      have hij : i ≠ j := by
        have := List.mem_range'_1.mp hj
        omega
      simp [hij]

theorem cosine_similarity_comm (a b : List ℝ) :
    cosine_similarity a b = cosine_similarity b a := by
  unfold cosine_similarity
  rw [List.zipWith_comm_of_comm _ mul_comm a b,
    mul_comm (Real.sqrt ((a.map (fun x => x * x)).sum))]

theorem pair_similarity_comm (A B : List (List ℝ)) :
    pair_similarity A B = pair_similarity B A := by
  unfold pair_similarity
  rw [List.zipWith_comm_of_comm _ (fun x y => by rw [cosine_similarity_comm]) A B]

theorem pair_similarity_nonneg :
    ∀ (A B : List (List ℝ)), 0 ≤ pair_similarity A B
  | [], _ => by simp [pair_similarity]
  | _ :: _, [] => by simp [pair_similarity]
  | a :: as, b :: bs => by
    have ih := pair_similarity_nonneg as bs
    have h2 : (0 : ℝ) ≤ |cosine_similarity a b| := abs_nonneg _
    unfold pair_similarity at ih ⊢
    simp only [List.zipWith_cons_cons, List.sum_cons]
    linarith

/-- **C7.** The similarity scalar of `forward(x, return_co_sim=True)` is
the sum, over all unordered pairs of distinct heads, of the batch-summed
absolute cosine similarity of the two heads' pre-final-layer features;
swapping the two heads of any pair leaves each summand unchanged; the
total is nonnegative; and with a single configured target it is exactly
zero. -/
theorem C7_similarity_pairwise_symmetric_nonneg :
    (∀ fs : List (List (List ℝ)),
      forward_similarity fs =
        ∑ i ∈ Finset.range fs.length, ∑ j ∈ Finset.Ico (i + 1) fs.length,
          pair_similarity (fs.getD i []) (fs.getD j [])) ∧
    (∀ A B : List (List ℝ), pair_similarity A B = pair_similarity B A) ∧
    (∀ fs : List (List (List ℝ)), 0 ≤ forward_similarity fs) ∧
    (∀ f : List (List ℝ), forward_similarity [f] = 0) := by
  refine ⟨forward_similarity_eq, pair_similarity_comm, fun fs => ?_, fun f => ?_⟩
  · rw [forward_similarity_eq]
    exact Finset.sum_nonneg (fun i _ =>
      Finset.sum_nonneg (fun j _ => pair_similarity_nonneg _ _))
  · rw [forward_similarity_eq]
    simp

theorem pyGet_nat (l : List α) (i : ℕ) (h : i < l.length) :
    pyGet l (i : ℤ) = .ok (l.get ⟨i, h⟩) := by
  unfold pyGet
  have h0 : ¬ ((i : ℤ) < 0) := by omega
  simp only [h0, if_false]
  have h1 : (0 : ℤ) ≤ (i : ℤ) ∧ ((i : ℤ)).toNat < l.length := by
    constructor
    · omega
    · simpa using h
  rw [dif_pos h1]
  simp

theorem isPow2_iff (n : ℕ) : isPow2 n = true ↔ ∃ k, n = 2 ^ k := by
  unfold isPow2
  simp only [List.any_eq_true, List.mem_range, decide_eq_true_eq]
  constructor
  · rintro ⟨k, _, hk⟩
    exact ⟨k, hk⟩
  · rintro ⟨k, rfl⟩
    exact ⟨k, by calc k < 2 ^ k := Nat.lt_two_pow k
                     _ < 2 ^ k + 1 := by omega, rfl⟩

/-- **C6.** Decoder construction checks that the time-window length
`input_shape[1]` is a power of two before building any layer: a
non-power-of-two length makes `standard_decoder_init` return a fatal
error (so no forward pass can ever be attempted on such a decoder),
and a power-of-two length constructs a decoder without raising. -/
theorem C6_pow2_time_window (shape : List ℕ) (tg : DecoderOpts)
    (h4 : shape.length = 4) :
    ((∃ k, shape.getD 1 0 = 2 ^ k) →
      ∃ m, standard_decoder_init shape tg = .ok m) ∧
    ((¬ ∃ k, shape.getD 1 0 = 2 ^ k) →
      ∃ e, standard_decoder_init shape tg = .error e) := by
  have hget1 : pyGet shape (1 : ℤ) = .ok (shape.getD 1 0) := by
    have h := pyGet_nat shape 1 (by omega)
    simp only [Nat.cast_one] at h
    rw [h]
    congr 1
    exact (List.getD_eq_getElem shape 0 (by omega)).symm
  have hget3 : pyGet shape (3 : ℤ) = .ok (shape.get ⟨3, by omega⟩) := by
    have h := pyGet_nat shape 3 (by omega)
    simpa using h
  have hget0 : pyGet shape (0 : ℤ) = .ok (shape.get ⟨0, by omega⟩) := by
    have h := pyGet_nat shape 0 (by omega)
    simpa using h
  constructor
  · rintro ⟨k, hk⟩
    have ht0 : shape.getD 1 0 ≠ 0 := by
      rw [hk]; positivity
    have hp : isPow2 (shape.getD 1 0) = true := (isPow2_iff _).mpr ⟨k, hk⟩
    unfold standard_decoder_init
    rw [hget1, hget3, hget0]
    simp only [bind, Except.bind, ht0, if_false, hp, Bool.not_true, Bool.false_eq_true, if_false]
    exact ⟨_, rfl⟩
  · intro hnp
    unfold standard_decoder_init
    rw [hget1]
    by_cases h0 : shape.getD 1 0 = 0
    · refine ⟨.valueError, ?_⟩
      simp only [bind, Except.bind]
      rw [if_pos h0]
    · have hp : isPow2 (shape.getD 1 0) = false := by
        rcases h : isPow2 (shape.getD 1 0) with _ | _
        · rfl
        · exact absurd ((isPow2_iff _).mp h) hnp
      refine ⟨.systemExit, ?_⟩
      simp only [bind, Except.bind]
      rw [if_neg h0]
      simp only [hp, Bool.not_false, if_true]

/-- Witness for C6 at concrete shapes: time-window length 8 (a power of
two) constructs, length 5 errors. -/
theorem C6_pow2_time_window_witness :
    (∃ m, standard_decoder_init [4, 8, 4, 1] ⟨1, 1, ["position"], [2]⟩ = .ok m) ∧
    (∃ e, standard_decoder_init [4, 5, 4, 1] ⟨1, 1, ["position"], [2]⟩ = .error e) :=
  ⟨(C6_pow2_time_window [4, 8, 4, 1] ⟨1, 1, ["position"], [2]⟩ rfl).1 ⟨3, rfl⟩,
   (C6_pow2_time_window [4, 5, 4, 1] ⟨1, 1, ["position"], [2]⟩ rfl).2
     (by
       rintro ⟨k, hk⟩
       have hk5 : (5 : ℕ) = 2 ^ k := hk
       have hb : k < 3 := by
         by_contra hc
         have : 2 ^ 3 ≤ 2 ^ k := Nat.pow_le_pow_right (by norm_num) (by omega)
         omega
       interval_cases k <;> norm_num at hk5)⟩

theorem conv_tsr_layers_default (n : ℕ) :
    ∀ l ∈ conv_tsr_layers n,
      l.wInit = WInit.pytorchDefault ∧ l.bInit = BInit.pytorchDefault := by
  intro l hl
  simp only [conv_tsr_layers, List.mem_flatten, List.mem_map] at hl
  obtain ⟨a, ⟨nct, _, rfl⟩, ha⟩ := hl
  simp only [List.mem_cons, List.not_mem_nil, or_false] at ha
  rcases ha with rfl | rfl | rfl | rfl <;> exact ⟨rfl, rfl⟩

theorem conv_after_layers_default (H : ℕ) :
    ∀ k, ∀ l ∈ conv_after_layers H k,
      l.wInit = WInit.pytorchDefault ∧ l.bInit = BInit.pytorchDefault := by
  induction H using Nat.strong_induction_on with
  | _ H ih =>
    intro k l hl
    unfold conv_after_layers at hl
    split at hl
    · rename_i h
      simp only [List.mem_cons] at hl
      rcases hl with rfl | rfl | hl
      · exact ⟨rfl, rfl⟩
      · exact ⟨rfl, rfl⟩
      · exact ih (pyRoundHalf H) (pyRoundHalf_lt h) (k + 1) l hl
    · simp at hl

theorem head_layers_default (key : String) (nd : ℕ) :
    ∀ l ∈ head_layers key nd,
      l.wInit = WInit.pytorchDefault ∧ l.bInit = BInit.pytorchDefault := by
  intro l hl
  simp only [head_layers, List.mem_append, List.mem_flatten, List.mem_map,
    List.mem_cons, List.not_mem_nil, or_false] at hl
  rcases hl with ⟨a, ⟨d, _, rfl⟩, ha⟩ | rfl
  · simp only [List.mem_cons, List.not_mem_nil, or_false] at ha
    rcases ha with rfl | rfl | rfl <;> exact ⟨rfl, rfl⟩
  · exact ⟨rfl, rfl⟩

theorem standard_decoder_init_layers_default (shape : List ℕ) (tg : DecoderOpts)
    (m : DecoderModel) (hok : standard_decoder_init shape tg = .ok m) :
    ∀ l ∈ m.layers,
      l.wInit = WInit.pytorchDefault ∧ l.bInit = BInit.pytorchDefault := by
  unfold standard_decoder_init at hok
  cases h1 : pyGet shape 1 with
  | error e => rw [h1] at hok; simp [bind, Except.bind] at hok
  | ok t =>
    rw [h1] at hok
    simp only [bind, Except.bind] at hok
    split at hok
    · exact absurd hok (by simp)
    · split at hok
      · exact absurd hok (by simp)
      · cases h3 : pyGet shape 3 with
        | error e => rw [h3] at hok; simp at hok
        | ok c3 =>
          rw [h3] at hok
          cases h0 : pyGet shape 0 with
          | error e => rw [h0] at hok; simp at hok
          | ok H0 =>
            rw [h0] at hok
            simp only [Except.ok.injEq] at hok
            subst hok
            intro l hl
            simp only [List.append_assoc, List.cons_append, List.nil_append,
              List.mem_cons, List.mem_append, List.mem_flatten, List.mem_map] at hl
            rcases hl with rfl | rfl | hl | rfl | hl | rfl | ⟨a, ⟨kv, _, rfl⟩, ha⟩
            · exact ⟨rfl, rfl⟩
            · exact ⟨rfl, rfl⟩
            · exact conv_tsr_layers_default _ l hl
            · exact ⟨rfl, rfl⟩
            · exact conv_after_layers_default _ _ l hl
            · exact ⟨rfl, rfl⟩
            · exact head_layers_default _ _ l ha

/-- Counterexample to **C8** as stated: at a concrete configuration
(no trunk convolutions, one dense-free `position` head) the construction
succeeds and its final linear head layer exposes both a weight and a
bias, yet neither is Kaiming-normal / zero initialized — construction
never invokes `initialise_layer`, so every parameter keeps the PyTorch
constructor default. -/
theorem C8_kaiming_at_construction_counterexample :
    ∃ m, standard_decoder_init [2, 4, 7, 1] ⟨0, 0, ["position"], [2]⟩ = .ok m ∧
      ¬ (∀ l ∈ m.layers,
          (l.hasWeight = true → l.wInit = WInit.kaimingNormal) ∧
          (l.hasBias = true → l.bInit = BInit.zeros)) := by
  have hca : conv_after_layers 2 0 = [] := by
    unfold conv_after_layers
    norm_num
  refine ⟨⟨[2, 4, 7, 1],
    [mkPlain "gaussian_noise", mkPlain "dropout", mkPlain "permute",
     mkPlain "flatten", mkLinear "target_position_fc_0"]⟩, ?_, ?_⟩
  · unfold standard_decoder_init
    simp only [bind, Except.bind, pyGet, conv_tsr_layers, head_layers, hca]
    norm_num [isPow2, List.range_succ, mkPlain, mkLinear]
    rw [hca]
    rfl
  · intro hall
    have := (hall (mkLinear "target_position_fc_0") (by simp)).1 rfl
    simp [mkLinear] at this

/-- **C8 (amended).** The decoder's `initialise_layer` helper does give
any layer exposing a weight a Kaiming-normal weight and any layer
exposing a bias a zero bias — but `Standard_Decoder.__init__` never
invokes it, so every layer constructed by `standard_decoder_init`
keeps the PyTorch constructor-default initialization for both
parameters. -/
theorem C8_initialise_layer_never_applied :
    (∀ l : Layer, l.hasWeight = true → (initialise_layer l).wInit = WInit.kaimingNormal) ∧
    (∀ l : Layer, l.hasBias = true → (initialise_layer l).bInit = BInit.zeros) ∧
    (∀ (shape : List ℕ) (tg : DecoderOpts) (m : DecoderModel),
      standard_decoder_init shape tg = .ok m →
      ∀ l ∈ m.layers,
        l.wInit = WInit.pytorchDefault ∧ l.bInit = BInit.pytorchDefault) := by
  refine ⟨fun l hw => ?_, fun l hb => ?_, standard_decoder_init_layers_default⟩
  · cases l with
    | mk nm w b wi bi =>
      cases b <;> simp_all [initialise_layer]
  · cases l with
    | mk nm w b wi bi =>
      cases w <;> simp_all [initialise_layer]

/-- Witness for the amended C8 at concrete inputs. -/
theorem C8_initialise_layer_never_applied_witness :
    (initialise_layer (mkConv2d "conv_tsr_0")).wInit = WInit.kaimingNormal ∧
    (initialise_layer (mkConv2d "conv_tsr_0")).bInit = BInit.zeros ∧
    (∀ l ∈ (DecoderModel.mk [2, 4, 7, 1]
        [mkPlain "gaussian_noise", mkPlain "dropout", mkPlain "permute",
         mkPlain "flatten", mkLinear "target_position_fc_0"]).layers,
      l.wInit = WInit.pytorchDefault ∧ l.bInit = BInit.pytorchDefault) := by
  refine ⟨C8_initialise_layer_never_applied.1 (mkConv2d "conv_tsr_0") rfl,
    C8_initialise_layer_never_applied.2.1 (mkConv2d "conv_tsr_0") rfl,
    C8_initialise_layer_never_applied.2.2 [2, 4, 7, 1] ⟨0, 0, ["position"], [2]⟩ _ ?_⟩
  have hca : conv_after_layers 2 0 = [] := by
    unfold conv_after_layers
    norm_num
  unfold standard_decoder_init
  simp only [bind, Except.bind, pyGet, conv_tsr_layers, head_layers, hca]
  norm_num [isPow2, List.range_succ, mkPlain, mkLinear]
  rw [hca]
  rfl

/-! ### Indexing lemmas for `pyGet`, `fancy` and `arange` -/

/-- Inversion for a successful `Except` bind. -/
theorem bind_ok_inv {α β : Type u} {e1 : Except PyErr α} {f : α → Except PyErr β} {c : β}
    (h : (e1 >>= f) = .ok c) : ∃ b, e1 = .ok b ∧ f b = .ok c := by
  cases e1 with
  | error e => simp [bind, Except.bind] at h
  | ok b => exact ⟨b, rfl, by simpa [bind, Except.bind] using h⟩

theorem pyGet_neg_one (l : List α) (h : 0 < l.length) :
    pyGet l (-1) = .ok (l.get ⟨l.length - 1, by omega⟩) := by
  have h2 : (0 : ℤ) ≤ -1 + l.length ∧ ((-1 : ℤ) + l.length).toNat < l.length := by omega
  have h3 : ((-1 : ℤ) + (l.length : ℤ)).toNat = l.length - 1 := by omega
  unfold pyGet
  have h1 : ((-1 : ℤ) < 0) := by norm_num
  simp only [h1, if_true]
  rw [dif_pos h2]
  congr 1
  exact congrArg l.get (Fin.ext h3)

theorem fancy_length (l : List α) :
    ∀ (idxs : List Int) (r : List α), fancy l idxs = .ok r → r.length = idxs.length
  | [], r, h => by
    simp only [fancy, List.mapM_nil, pure] at h
    cases h
    rfl
  | i :: idxs, r, h => by
    simp only [fancy, List.mapM_cons] at h
    obtain ⟨x, hx, h⟩ := bind_ok_inv h
    obtain ⟨xs, hxs, h⟩ := bind_ok_inv h
    simp only [pure, Except.pure, Except.ok.injEq] at h
    subst h
    simp [fancy_length l idxs xs hxs]

theorem fancy_get (l : List α) :
    ∀ (idxs : List Int) (r : List α), fancy l idxs = .ok r →
      ∀ (k : ℕ) (hk : k < idxs.length) (hk' : k < r.length),
        pyGet l (idxs.get ⟨k, hk⟩) = .ok (r.get ⟨k, hk'⟩)
  | [], r, h, k, hk, hk' => by simp at hk
  | i :: idxs, r, h, k, hk, hk' => by
    simp only [fancy, List.mapM_cons] at h
    obtain ⟨x, hx, h⟩ := bind_ok_inv h
    obtain ⟨xs, hxs, h⟩ := bind_ok_inv h
    simp only [pure, Except.pure, Except.ok.injEq] at h
    subst h
    cases k with
    | zero => simpa using hx
    | succ k =>
      exact fancy_get l idxs xs hxs k (by simpa using hk) (by simpa using hk')

theorem arange_length (a b : ℤ) : (arange a b).length = (b - a).toNat := by
  rw [arange, List.length_map, List.length_range]

theorem arange_get (a b : ℤ) (k : ℕ) (h : k < (arange a b).length) :
    (arange a b).get ⟨k, h⟩ = a + k := by
  simp only [arange, List.get_eq_getElem, List.getElem_map, List.getElem_range]

/-- The last element of a fancy-indexed `arange` slice is the source
element at the final index `b - 1`. -/
theorem fancy_arange_last (l : List α) (a b : ℤ) (hab : a < b) (r : List α)
    (hf : fancy l (arange a b) = .ok r) (x : α) (hx : pyGet r (-1) = .ok x) :
    pyGet l (b - 1) = .ok x := by
  have hlen : r.length = (b - a).toNat := by
    rw [fancy_length l _ r hf, arange_length]
  have hpos : 0 < r.length := by omega
  rw [pyGet_neg_one r hpos] at hx
  have hk : r.length - 1 < (arange a b).length := by
    rw [arange_length]; omega
  have hg := fancy_get l (arange a b) r hf (r.length - 1) hk (by omega)
  rw [arange_get] at hg
  have harith : a + ((r.length - 1 : ℕ) : ℤ) = b - 1 := by omega
  rw [harith] at hg
  rw [hg]
  injection hx with hx
  rw [hx]

/-! ### Structure of the `get_output_sample` loop -/

theorem out_loop_append (l1 l2 : List (String × List Vec)) (cr pcr : List Int) :
    ∀ st, out_loop (l1 ++ l2) cr pcr st =
      (out_loop l1 cr pcr st) >>= (fun p =>
        (out_loop l2 cr pcr p.2) >>= (fun q => .ok (p.1 ++ q.1, q.2))) := by
  induction l1 with
  | nil =>
    intro st
    cases h : out_loop l2 cr pcr st with
    | error e => simp [out_loop, h, bind, Except.bind]
    | ok q => simp [out_loop, h, bind, Except.bind]
  | cons t l1 ih =>
    intro st
    obtain ⟨name, out⟩ := t
    rw [List.cons_append]
    simp only [out_loop]
    cases hs : out_step name out cr pcr st with
    | error e => simp [hs, bind, Except.bind]
    | ok vs =>
      obtain ⟨v, st1⟩ := vs
      simp only [hs, bind, Except.bind]
      rw [ih st1]
      cases h1 : out_loop l1 cr pcr st1 with
      | error e => simp [bind, Except.bind]
      | ok p =>
        obtain ⟨r1, st2⟩ := p
        simp only [bind, Except.bind]
        cases h2 : out_loop l2 cr pcr st2 with
        | error e => simp
        | ok q => simp

theorem out_loop_length (cr pcr : List Int) :
    ∀ (l : List (String × List Vec)) (st : LoopSt) (r : List OutVal) (st' : LoopSt),
      out_loop l cr pcr st = .ok (r, st') → r.length = l.length
  | [], st, r, st', h => by
    simp only [out_loop, Except.ok.injEq, Prod.mk.injEq] at h
    simp [← h.1]
  | (name, out) :: l, st, r, st', h => by
    simp only [out_loop] at h
    obtain ⟨⟨v, st1⟩, hs, h⟩ := bind_ok_inv h
    obtain ⟨⟨rs, st2⟩, hrest, h⟩ := bind_ok_inv h
    simp only [Except.ok.injEq, Prod.mk.injEq] at h
    obtain ⟨h1, _⟩ := h
    subst h1
    simp [out_loop_length cr pcr l st1 rs st2 hrest]

/-- A non-`position` step never changes the loop state. -/
theorem out_step_state (name : String) (out : List Vec) (cr pcr : List Int)
    (st : LoopSt) (v : OutVal) (st1 : LoopSt)
    (hname : name ≠ "position")
    (h : out_step name out cr pcr st = .ok (v, st1)) : st1 = st := by
  unfold out_step at h
  obtain ⟨cd, hcd, h⟩ := bind_ok_inv h
  obtain ⟨pcd, hpcd, h⟩ := bind_ok_inv h
  rw [if_neg hname] at h
  split at h
  · cases st with
    | none => exact absurd h (by simp)
    | some s =>
      obtain ⟨cm, pm⟩ := s
      obtain ⟨y1, _, h⟩ := bind_ok_inv h
      obtain ⟨y0, _, h⟩ := bind_ok_inv h
      obtain ⟨x1, _, h⟩ := bind_ok_inv h
      obtain ⟨x0, _, h⟩ := bind_ok_inv h
      simp only [Except.ok.injEq, Prod.mk.injEq] at h
      exact h.2.symm
  · split at h
    · cases st with
      | none => exact absurd h (by simp)
      | some s =>
        obtain ⟨cm, pm⟩ := s
        obtain ⟨y1, _, h⟩ := bind_ok_inv h
        obtain ⟨y0, _, h⟩ := bind_ok_inv h
        obtain ⟨x1, _, h⟩ := bind_ok_inv h
        obtain ⟨x0, _, h⟩ := bind_ok_inv h
        simp only [Except.ok.injEq, Prod.mk.injEq] at h
        exact h.2.symm
    · split at h
      · cases st with
        | none => exact absurd h (by simp)
        | some s =>
          obtain ⟨cm, pm⟩ := s
          simp only [Except.ok.injEq, Prod.mk.injEq] at h
          exact h.2.symm
      · exact absurd h (by simp)

/-- A run over targets none of which is named `position` leaves the
state unchanged. -/
theorem out_loop_no_position_state (cr pcr : List Int) :
    ∀ (l : List (String × List Vec)) (st : LoopSt) (r : List OutVal) (st' : LoopSt),
      (∀ t ∈ l, t.1 ≠ "position") →
      out_loop l cr pcr st = .ok (r, st') → st' = st
  | [], st, r, st', _, h => by
    simp only [out_loop, Except.ok.injEq, Prod.mk.injEq] at h
    exact h.2.symm
  | (name, out) :: l, st, r, st', hno, h => by
    simp only [out_loop] at h
    obtain ⟨⟨v, st1⟩, hs, h⟩ := bind_ok_inv h
    obtain ⟨⟨rs, st2⟩, hrest, h⟩ := bind_ok_inv h
    simp only [Except.ok.injEq, Prod.mk.injEq] at h
    have hst1 : st1 = st :=
      out_step_state name out cr pcr st v st1 (hno (name, out) (by simp)) hs
    have hst2 : st2 = st1 :=
      out_loop_no_position_state cr pcr l st1 rs st2
        (fun t ht => hno t (by simp [ht])) hrest
    rw [← h.2, hst2, hst1]

/-- Inversion of a successful `position` step: it reads the last row of
both windows of its own (position) array, emits the current one and
binds the pair into the loop state. -/
theorem out_step_position (p : List Vec) (cr pcr : List Int) (st : LoopSt)
    (v : OutVal) (st1 : LoopSt)
    (h : out_step "position" p cr pcr st = .ok (v, st1)) :
    ∃ cd pcd pm cm, fancy p cr = .ok cd ∧ fancy p pcr = .ok pcd ∧
      pyGet pcd (-1) = .ok pm ∧ pyGet cd (-1) = .ok cm ∧
      v = .vec cm ∧ st1 = some (cm, pm) := by
  unfold out_step at h
  obtain ⟨cd, hcd, h⟩ := bind_ok_inv h
  obtain ⟨pcd, hpcd, h⟩ := bind_ok_inv h
  rw [if_pos rfl] at h
  obtain ⟨pm, hpm, h⟩ := bind_ok_inv h
  obtain ⟨cm, hcm, h⟩ := bind_ok_inv h
  simp only [Except.ok.injEq, Prod.mk.injEq] at h
  exact ⟨cd, pcd, pm, cm, hcd, hpcd, hpm, hcm, h.1.symm, h.2.symm⟩

/-- Inversion of a successful `direction` / `head_direction` step with
bound locals: the label is `atan2` of the locals' coordinate deltas —
the locals, not the direction array itself. -/
theorem out_step_dir (dname : String) (d : List Vec) (cr pcr : List Int)
    (cm pm : Vec) (v : OutVal) (st1 : LoopSt)
    (hd : dname = "direction" ∨ dname = "head_direction")
    (h : out_step dname d cr pcr (some (cm, pm)) = .ok (v, st1)) :
    ∃ y1 y0 x1 x0, pyGet cm 1 = .ok y1 ∧ pyGet pm 1 = .ok y0 ∧
      pyGet cm 0 = .ok x1 ∧ pyGet pm 0 = .ok x0 ∧
      v = .scalar (atan2 ((y1 - y0 : ℚ) : ℝ) ((x1 - x0 : ℚ) : ℝ)) ∧
      st1 = some (cm, pm) := by
  have hnp : dname ≠ "position" := by rcases hd with rfl | rfl <;> decide
  unfold out_step at h
  obtain ⟨cd, hcd, h⟩ := bind_ok_inv h
  obtain ⟨pcd, hpcd, h⟩ := bind_ok_inv h
  rw [if_neg hnp] at h
  rcases hd with rfl | rfl
  · rw [if_neg (by decide), if_pos rfl] at h
    obtain ⟨y1, hy1, h⟩ := bind_ok_inv h
    obtain ⟨y0, hy0, h⟩ := bind_ok_inv h
    obtain ⟨x1, hx1, h⟩ := bind_ok_inv h
    obtain ⟨x0, hx0, h⟩ := bind_ok_inv h
    simp only [Except.ok.injEq, Prod.mk.injEq] at h
    exact ⟨y1, y0, x1, x0, hy1, hy0, hx1, hx0, h.1.symm, h.2.symm⟩
  · rw [if_pos rfl] at h
    obtain ⟨y1, hy1, h⟩ := bind_ok_inv h
    obtain ⟨y0, hy0, h⟩ := bind_ok_inv h
    obtain ⟨x1, hx1, h⟩ := bind_ok_inv h
    obtain ⟨x0, hx0, h⟩ := bind_ok_inv h
    simp only [Except.ok.injEq, Prod.mk.injEq] at h
    exact ⟨y1, y0, x1, x0, hy1, hy0, hx1, hx0, h.1.symm, h.2.symm⟩

/-- Inversion of a successful `speed` step with bound locals: the label
is `getspeed` of the locals — the position rows, not the speed array. -/
theorem out_step_speed (d : List Vec) (cr pcr : List Int)
    (cm pm : Vec) (v : OutVal) (st1 : LoopSt)
    (h : out_step "speed" d cr pcr (some (cm, pm)) = .ok (v, st1)) :
    v = .scalar (getspeed cm pm) ∧ st1 = some (cm, pm) := by
  unfold out_step at h
  obtain ⟨cd, hcd, h⟩ := bind_ok_inv h
  obtain ⟨pcd, hpcd, h⟩ := bind_ok_inv h
  rw [if_neg (by decide), if_neg (by decide), if_neg (by decide), if_pos rfl] at h
  simp only [Except.ok.injEq, Prod.mk.injEq] at h
  exact ⟨h.1.symm, h.2.symm⟩

theorem out_loop_cons_ok (name : String) (out : List Vec)
    (rest : List (String × List Vec)) (cr pcr : List Int) (st : LoopSt)
    (r : List OutVal) (stE : LoopSt)
    (h : out_loop ((name, out) :: rest) cr pcr st = .ok (r, stE)) :
    ∃ v st1 rs, out_step name out cr pcr st = .ok (v, st1) ∧
      out_loop rest cr pcr st1 = .ok (rs, stE) ∧ r = v :: rs := by
  simp only [out_loop] at h
  obtain ⟨⟨v, st1⟩, hs, h⟩ := bind_ok_inv h
  obtain ⟨⟨rs, st2⟩, hrest, h⟩ := bind_ok_inv h
  simp only [Except.ok.injEq, Prod.mk.injEq] at h
  exact ⟨v, st1, rs, hs, h.2 ▸ hrest, h.1.symm⟩

theorem get_output_sample_ok (targets : List (String × List Vec))
    (cr pcr : List Int) (r : List OutVal)
    (h : get_output_sample targets cr pcr = .ok r) :
    ∃ stE, out_loop targets cr pcr none = .ok (r, stE) := by
  unfold get_output_sample at h
  cases h' : out_loop targets cr pcr none with
  | error e => rw [h'] at h; simp [Except.map] at h
  | ok q =>
    obtain ⟨r', stE⟩ := q
    rw [h'] at h
    simp only [Except.map, Except.ok.injEq] at h
    exact ⟨stE, by rw [h]⟩

/-- Decomposition of a successful `get_output_sample` run whose target
list has a `position` entry followed (possibly after non-`position`
targets) by a remainder: the remainder runs with the position window
rows bound in the loop state. -/
theorem out_loop_pos_mid (pre mid rest : List (String × List Vec)) (p : List Vec)
    (cr pcr : List Int) (r : List OutVal) (stE : LoopSt)
    (hmid : ∀ t ∈ mid, t.1 ≠ "position")
    (h : out_loop (pre ++ ("position", p) :: (mid ++ rest)) cr pcr none = .ok (r, stE)) :
    ∃ (rpre rm rr : List OutVal) (cd pcd : List Vec) (cm pm : Vec),
      fancy p cr = .ok cd ∧ fancy p pcr = .ok pcd ∧
      pyGet pcd (-1) = .ok pm ∧ pyGet cd (-1) = .ok cm ∧
      out_loop rest cr pcr (some (cm, pm)) = .ok (rr, stE) ∧
      r = rpre ++ OutVal.vec cm :: (rm ++ rr) ∧
      rpre.length = pre.length ∧ rm.length = mid.length := by
  rw [out_loop_append pre (("position", p) :: (mid ++ rest)) cr pcr none] at h
  obtain ⟨⟨rpre, st1⟩, hpre, h⟩ := bind_ok_inv h
  obtain ⟨⟨r2, st2⟩, h2, h⟩ := bind_ok_inv h
  simp only [Except.ok.injEq, Prod.mk.injEq] at h
  obtain ⟨v0, stp, rs, hstep, hrest2, hr2⟩ := out_loop_cons_ok _ _ _ _ _ _ _ _ h2
  obtain ⟨cd, pcd, pm, cm, hcd, hpcd, hpm, hcm, hv0, hstp⟩ :=
    out_step_position p cr pcr st1 v0 stp hstep
  subst hstp
  rw [out_loop_append mid rest cr pcr (some (cm, pm))] at hrest2
  obtain ⟨⟨rm, stm⟩, hm, hmid2⟩ := bind_ok_inv hrest2
  dsimp only at hmid2
  obtain ⟨⟨rr, str⟩, hrr, hfin⟩ := bind_ok_inv hmid2
  dsimp only at hfin
  simp only [Except.ok.injEq, Prod.mk.injEq] at hfin
  have hstm : stm = some (cm, pm) :=
    out_loop_no_position_state cr pcr mid (some (cm, pm)) rm stm hmid hm
  subst hstm
  refine ⟨rpre, rm, rr, cd, pcd, cm, pm, hcd, hpcd, hpm, hcm, ?_, ?_, ?_, ?_⟩
  · rw [← h.2, ← hfin.2]
    exact hrr
  · rw [← h.1, hr2, hv0, ← hfin.1]
  · exact out_loop_length cr pcr pre none rpre st1 hpre
  · exact out_loop_length cr pcr mid (some (cm, pm)) rm (some (cm, pm)) hm

theorem getElem?_decomp (rpre rm rr : List OutVal) (v0 : OutVal) :
    (rpre ++ v0 :: (rm ++ rr))[rpre.length + 1 + rm.length]? = rr[0]? := by
  rw [List.getElem?_append_right (by omega)]
  have h1 : rpre.length + 1 + rm.length - rpre.length = rm.length + 1 := by omega
  rw [h1, List.getElem?_cons_succ, List.getElem?_append_right (by omega)]
  simp

/-- **C1.** For a configured `direction` / `head_direction` target (with
the `position` target appearing earlier, and no other `position` target
in between), the label `get_output_sample` returns at that slot is
`atan2` of the coordinate deltas of the *position* channel between the
last step of the current window (`p[idx+ss-1]`) and the last step of the
previous window (`p[idx+ss-2]`) — not a value of the direction target's
own array `d`. -/
theorem C1_direction_label_from_position (pre mid post : List (String × List Vec))
    (p d : List Vec) (dname : String) (idx : ℤ) (ss : ℕ) (r : List OutVal)
    (hd : dname = "direction" ∨ dname = "head_direction")
    (hmid : ∀ t ∈ mid, t.1 ≠ "position")
    (hss : 1 ≤ ss)
    (hok : get_output_sample (pre ++ ("position", p) :: (mid ++ (dname, d) :: post))
      (arange idx (idx + ss)) (arange (idx - 1) (idx + ss - 1)) = .ok r) :
    ∃ plast pprev y1 y0 x1 x0,
      pyGet p (idx + ss - 1) = .ok plast ∧
      pyGet p (idx + ss - 2) = .ok pprev ∧
      pyGet plast 1 = .ok y1 ∧ pyGet pprev 1 = .ok y0 ∧
      pyGet plast 0 = .ok x1 ∧ pyGet pprev 0 = .ok x0 ∧
      r[pre.length + 1 + mid.length]? =
        some (.scalar (atan2 ((y1 - y0 : ℚ) : ℝ) ((x1 - x0 : ℚ) : ℝ))) := by
  obtain ⟨stE, hloop⟩ := get_output_sample_ok _ _ _ _ hok
  obtain ⟨rpre, rm, rr, cd, pcd, cm, pm, hcd, hpcd, hpm, hcm, hrest, hr, hlp, hlm⟩ :=
    out_loop_pos_mid pre mid ((dname, d) :: post) p _ _ r stE hmid hloop
  have hlast : pyGet p (idx + ss - 1) = .ok cm :=
    fancy_arange_last p idx (idx + ss) (by omega) cd hcd cm hcm
  have hprev : pyGet p (idx + ss - 2) = .ok pm := by
    have h2 := fancy_arange_last p (idx - 1) (idx + ss - 1) (by omega) pcd hpcd pm hpm
    have e : idx + (ss : ℤ) - 1 - 1 = idx + ss - 2 := by ring
    rw [e] at h2
    exact h2
  obtain ⟨v1, st4, rest', hdstep, hrest', hrr⟩ :=
    out_loop_cons_ok dname d post _ _ (some (cm, pm)) rr stE hrest
  obtain ⟨y1, y0, x1, x0, hy1, hy0, hx1, hx0, hv1, _⟩ :=
    out_step_dir dname d _ _ cm pm v1 st4 hd hdstep
  refine ⟨cm, pm, y1, y0, x1, x0, hlast, hprev, hy1, hy0, hx1, hx0, ?_⟩
  rw [hr, ← hlp, ← hlm, getElem?_decomp, hrr]
  simp [hv1]

/-- Witness for C1 at a concrete recording: the direction channel holds
only the junk value 9, yet the returned label is `atan2` of the
position deltas. -/
theorem C1_direction_label_from_position_witness :
    ∃ plast pprev y1 y0 x1 x0,
      pyGet ([[0, 0], [1, 0], [3, 1]] : List Vec) 2 = .ok plast ∧
      pyGet ([[0, 0], [1, 0], [3, 1]] : List Vec) 1 = .ok pprev ∧
      pyGet plast 1 = .ok y1 ∧ pyGet pprev 1 = .ok y0 ∧
      pyGet plast 0 = .ok x1 ∧ pyGet pprev 0 = .ok x0 ∧
      ([OutVal.vec [3, 1],
        OutVal.scalar (atan2 ((1 - 0 : ℚ) : ℝ) ((3 - 1 : ℚ) : ℝ))] : List OutVal)[1]? =
        some (.scalar (atan2 ((y1 - y0 : ℚ) : ℝ) ((x1 - x0 : ℚ) : ℝ))) :=
  C1_direction_label_from_position [] [] [] [[0, 0], [1, 0], [3, 1]] [[9], [9], [9]]
    "direction" 1 2 [OutVal.vec [3, 1],
      OutVal.scalar (atan2 ((1 - 0 : ℚ) : ℝ) ((3 - 1 : ℚ) : ℝ))]
    (Or.inl rfl) (fun t ht => absurd ht (List.not_mem_nil t)) (by norm_num) rfl

/-- **C2.** For a configured `speed` target (with `position` earlier and
no `position` in between), the label is `getspeed` of the position
channel's last rows of the current and previous windows — the Euclidean
distance `sqrt (sum of squared coordinate deltas)` between
`p[idx+ss-1]` and `p[idx+ss-2]` — not a value of the speed target's own
array `s`. -/
theorem C2_speed_label_euclidean (pre mid post : List (String × List Vec))
    (p s : List Vec) (idx : ℤ) (ss : ℕ) (r : List OutVal)
    (hmid : ∀ t ∈ mid, t.1 ≠ "position")
    (hss : 1 ≤ ss)
    (hok : get_output_sample (pre ++ ("position", p) :: (mid ++ ("speed", s) :: post))
      (arange idx (idx + ss)) (arange (idx - 1) (idx + ss - 1)) = .ok r) :
    ∃ plast pprev,
      pyGet p (idx + ss - 1) = .ok plast ∧
      pyGet p (idx + ss - 2) = .ok pprev ∧
      r[pre.length + 1 + mid.length]? = some (.scalar (getspeed plast pprev)) ∧
      getspeed plast pprev =
        Real.sqrt (((List.zipWith (fun x y => (x - y) * (x - y)) plast pprev).sum : ℚ) : ℝ) := by
  obtain ⟨stE, hloop⟩ := get_output_sample_ok _ _ _ _ hok
  obtain ⟨rpre, rm, rr, cd, pcd, cm, pm, hcd, hpcd, hpm, hcm, hrest, hr, hlp, hlm⟩ :=
    out_loop_pos_mid pre mid (("speed", s) :: post) p _ _ r stE hmid hloop
  have hlast : pyGet p (idx + ss - 1) = .ok cm :=
    fancy_arange_last p idx (idx + ss) (by omega) cd hcd cm hcm
  have hprev : pyGet p (idx + ss - 2) = .ok pm := by
    have h2 := fancy_arange_last p (idx - 1) (idx + ss - 1) (by omega) pcd hpcd pm hpm
    have e : idx + (ss : ℤ) - 1 - 1 = idx + ss - 2 := by ring
    rw [e] at h2
    exact h2
  obtain ⟨v1, st4, rest', hsstep, hrest', hrr⟩ :=
    out_loop_cons_ok "speed" s post _ _ (some (cm, pm)) rr stE hrest
  obtain ⟨hv1, _⟩ := out_step_speed s _ _ cm pm v1 st4 hsstep
  refine ⟨cm, pm, hlast, hprev, ?_, rfl⟩
  rw [hr, ← hlp, ← hlm, getElem?_decomp, hrr]
  simp [hv1]

/-- Witness for C2 at a concrete recording: positions advance one unit
per step along x, the speed channel holds only the junk value 7, yet
the returned label is the Euclidean distance of the position deltas. -/
theorem C2_speed_label_euclidean_witness :
    ∃ plast pprev,
      pyGet ([[0, 0], [1, 0], [2, 0]] : List Vec) 2 = .ok plast ∧
      pyGet ([[0, 0], [1, 0], [2, 0]] : List Vec) 1 = .ok pprev ∧
      ([OutVal.vec [2, 0], OutVal.scalar (getspeed [2, 0] [1, 0])] : List OutVal)[1]? =
        some (.scalar (getspeed plast pprev)) ∧
      getspeed plast pprev =
        Real.sqrt (((List.zipWith (fun x y => (x - y) * (x - y)) plast pprev).sum : ℚ) : ℝ) :=
  C2_speed_label_euclidean [] [] [] [[0, 0], [1, 0], [2, 0]] [[7], [7], [7]] 1 2
    [OutVal.vec [2, 0], OutVal.scalar (getspeed [2, 0] [1, 0])]
    (fun t ht => absurd ht (List.not_mem_nil t)) (by norm_num) rfl

/-- A step on an unbound loop state can only succeed through the
`position` branch. -/
theorem out_step_none_not_ok (name : String) (out : List Vec) (cr pcr : List Int)
    (hname : name ≠ "position") :
    ∀ v st1, out_step name out cr pcr none ≠ .ok (v, st1) := by
  intro v st1 h
  unfold out_step at h
  obtain ⟨cd, hcd, h⟩ := bind_ok_inv h
  obtain ⟨pcd, hpcd, h⟩ := bind_ok_inv h
  rw [if_neg hname] at h
  split at h
  · simp at h
  · split at h
    · simp at h
    · split at h
      · simp at h
      · simp at h

theorem out_loop_first_not_position (name : String) (out : List Vec)
    (rest : List (String × List Vec)) (cr pcr : List Int)
    (hname : name ≠ "position") :
    ∀ r, get_output_sample ((name, out) :: rest) cr pcr ≠ .ok r := by
  intro r hok
  obtain ⟨stE, hloop⟩ := get_output_sample_ok _ _ _ _ hok
  obtain ⟨v, st1, rs, hstep, _, _⟩ :=
    out_loop_cons_ok name out rest cr pcr none r stE hloop
  exact out_step_none_not_ok name out cr pcr hname v st1 hstep

/-- When the first target is `direction` / `head_direction` / `speed`
and its own slicing succeeds, the failure is precisely the Python
`NameError` on the unbound locals. -/
theorem out_step_none_nameError (name : String) (out : List Vec) (cr pcr : List Int)
    (hname : name = "direction" ∨ name = "head_direction" ∨ name = "speed")
    (cd pcd : List Vec) (hcd : fancy out cr = .ok cd) (hpcd : fancy out pcr = .ok pcd) :
    out_step name out cr pcr none = .error .nameError := by
  have hnp : name ≠ "position" := by rcases hname with rfl | rfl | rfl <;> decide
  unfold out_step
  rw [hcd, hpcd]
  simp only [bind, Except.bind]
  rw [if_neg hnp]
  rcases hname with rfl | rfl | rfl
  · rw [if_neg (by decide), if_pos rfl]
  · rw [if_pos rfl]
  · rw [if_neg (by decide), if_neg (by decide), if_pos rfl]

theorem get_output_sample_first_dir_nameError (name : String) (out : List Vec)
    (rest : List (String × List Vec)) (cr pcr : List Int)
    (hname : name = "direction" ∨ name = "head_direction" ∨ name = "speed")
    (cd pcd : List Vec) (hcd : fancy out cr = .ok cd) (hpcd : fancy out pcr = .ok pcd) :
    get_output_sample ((name, out) :: rest) cr pcr = .error .nameError := by
  unfold get_output_sample
  simp only [out_loop, out_step_none_nameError name out cr pcr hname cd pcd hcd hpcd,
    bind, Except.bind, Except.map]

/-- **C9.** If some configured target named `direction`,
`head_direction` or `speed` has no earlier `position` target, then
`get_output_sample` never succeeds — the labels are not derived from
the named target's own channel; and when such a target comes first and
its own array slicing succeeds, the failure is exactly the
unbound-local `NameError` on `cut_data_m` / `pcdm`. -/
theorem C9_missing_position_fails (targets : List (String × List Vec))
    (cr pcr : List Int) (i : ℕ) (hi : i < targets.length)
    (hname : (targets.get ⟨i, hi⟩).1 = "direction" ∨
             (targets.get ⟨i, hi⟩).1 = "head_direction" ∨
             (targets.get ⟨i, hi⟩).1 = "speed")
    (hpre : ∀ j (hj : j < i), (targets.get ⟨j, by omega⟩).1 ≠ "position") :
    (∀ r, get_output_sample targets cr pcr ≠ .ok r) ∧
    (i = 0 →
      ∀ cd pcd, fancy (targets.get ⟨i, hi⟩).2 cr = .ok cd →
        fancy (targets.get ⟨i, hi⟩).2 pcr = .ok pcd →
        get_output_sample targets cr pcr = .error .nameError) := by
  cases targets with
  | nil => simp at hi
  | cons t rest =>
    obtain ⟨name, out⟩ := t
    have hfirst : name ≠ "position" := by
      cases i with
      | zero =>
        have hname' : name = "direction" ∨ name = "head_direction" ∨ name = "speed" := hname
        rcases hname' with rfl | rfl | rfl <;> decide
      | succ n =>
        have h0 : name ≠ "position" := hpre 0 (by omega)
        exact h0
    refine ⟨out_loop_first_not_position name out rest cr pcr hfirst, ?_⟩
    intro hi0 cd pcd hcd hpcd
    subst hi0
    have hname' : name = "direction" ∨ name = "head_direction" ∨ name = "speed" := hname
    have hcd' : fancy out cr = .ok cd := hcd
    have hpcd' : fancy out pcr = .ok pcd := hpcd
    exact get_output_sample_first_dir_nameError name out rest cr pcr hname' cd pcd hcd' hpcd'

/-- Witness for C9: a lone `speed` target (no `position` before it)
makes `get_output_sample` fail with the unbound-local error. -/
theorem C9_missing_position_fails_witness :
    (∀ r, get_output_sample [("speed", ([[5], [5]] : List Vec))] [0] [0] ≠ .ok r) ∧
    get_output_sample [("speed", ([[5], [5]] : List Vec))] [0] [0] = .error .nameError :=
  ⟨(C9_missing_position_fails [("speed", [[5], [5]])] [0] [0] 0 (by norm_num)
      (Or.inr (Or.inr rfl)) (fun j hj => by omega)).1,
   (C9_missing_position_fails [("speed", [[5], [5]])] [0] [0] 0 (by norm_num)
      (Or.inr (Or.inr rfl)) (fun j hj => by omega)).2 rfl [[5]] [[5]] rfl rfl⟩

/-- **C4.** `__getitem__` never returns a sample its region filter
rejects: a successful return satisfies the acceptance predicate, and a
rejected output sample makes the call equal to a fresh re-invocation of
the whole lookup (randomization included, the random stream advanced)
at the originally requested index `og`. -/
theorem C4_region_filter_never_bypassed (ds : DS) (rng : ℕ → ℕ) :
    (∀ (fuel a : ℕ) (og : ℤ) (inp : List (List (List (List (Option ℚ)))))
        (out : List OutVal),
      getitem ds rng fuel a og = .ok (inp, out) →
      accept_output out ds.train_half = .ok true) ∧
    (∀ (fuel a : ℕ) (og : ℤ) (rs : List Int × List Int) (os : List OutVal),
      resolve_ranges ds rng a og = .ok rs →
      get_output_sample ds.targets rs.1 rs.2 = .ok os →
      accept_output os ds.train_half = .ok false →
      getitem ds rng (fuel + 1) a og = getitem ds rng fuel (a + 1) og) := by
  constructor
  · intro fuel
    induction fuel with
    | zero => intro a og inp out h; exact absurd h (by simp [getitem])
    | succ fuel ih =>
      intro a og inp out h
      unfold getitem at h
      obtain ⟨rs, hrs, h⟩ := bind_ok_inv h
      obtain ⟨os, hos, h⟩ := bind_ok_inv h
      obtain ⟨acc, hacc, h⟩ := bind_ok_inv h
      cases acc with
      | false =>
        simp only [Bool.false_eq_true, if_false] at h
        exact ih (a + 1) og inp out h
      | true =>
        simp only [if_true] at h
        obtain ⟨inp', hinp, h⟩ := bind_ok_inv h
        simp only [Except.ok.injEq, Prod.mk.injEq] at h
        rw [← h.2]
        exact hacc
  · intro fuel a og rs os hrs hos hacc
    have h1 : getitem ds rng (fuel + 1) a og =
        (resolve_ranges ds rng a og) >>= (fun rs' =>
          (get_output_sample ds.targets rs'.1 rs'.2) >>= (fun os' =>
            (accept_output os' ds.train_half) >>= (fun acc =>
              if acc then
                (get_input_sample ds.wavelets ds.est_mean ds.est_std rs'.1) >>= (fun inp =>
                  .ok (inp, modify_out_sample os'))
              else getitem ds rng fuel (a + 1) og))) := rfl
    rw [h1, hrs]
    simp only [bind, Except.bind]
    rw [hos]
    simp only []
    rw [hacc]
    simp

/-- Witness for C4: an accepted sample (no filter) satisfies the
predicate, and a `top`-rejected sample (position y = 0 ≤ 0.1) makes the
call retry at the original index. -/
theorem C4_region_filter_never_bypassed_witness :
    accept_output [OutVal.vec [1, 1]] none = .ok true ∧
    (getitem ⟨[[[0]], [[1]]], [("position", [[0, 0], [1, 0]])], [1], 1,
        false, false, some "top", [[0]], [[1]]⟩ (fun _ => 0) 1 0 0 =
      getitem ⟨[[[0]], [[1]]], [("position", [[0, 0], [1, 0]])], [1], 1,
        false, false, some "top", [[0]], [[1]]⟩ (fun _ => 0) 0 1 0) :=
  ⟨(C4_region_filter_never_bypassed
      ⟨[[[0]], [[1]]], [("position", [[0, 0], [1, 1]])], [1], 1,
        false, false, none, [[0]], [[1]]⟩ (fun _ => 0)).1
      1 0 0 [[[[some ((1 - 0) / 1)]]]] [OutVal.vec [1, 1]] rfl,
   (C4_region_filter_never_bypassed
      ⟨[[[0]], [[1]]], [("position", [[0, 0], [1, 0]])], [1], 1,
        false, false, some "top", [[0]], [[1]]⟩ (fun _ => 0)).2
      0 0 0 ([1], [0]) [OutVal.vec [1, 0]] rfl rfl
      (by simp [accept_output, head_vec, pyGet, bind, Except.bind])⟩

theorem init_half_guard_false (th : Option String) : init_half_guard th = false := by
  cases th <;> simp [init_half_guard]

theorem accept_output_unknown (os : List OutVal) (s : String)
    (hs : s ∉ (["top", "bottom", "inside", "outside", "left", "right"] : List String)) :
    accept_output os (some s) = .error .systemExit := by
  simp only [List.mem_cons, List.not_mem_nil, or_false, not_or] at hs
  obtain ⟨h1, h2, h3, h4, h5, h6⟩ := hs
  unfold accept_output
  rw [if_neg (fun h => h1 (Option.some.inj h)), if_neg (fun h => h2 (Option.some.inj h)),
    if_neg (fun h => h3 (Option.some.inj h)), if_neg (fun h => h4 (Option.some.inj h)),
    if_neg (fun h => h5 (Option.some.inj h)), if_neg (fun h => h6 (Option.some.inj h)),
    if_neg (by simp)]

theorem getitem_unknown_kw (ds : DS) (rng : ℕ → ℕ) (s : String)
    (hth : ds.train_half = some s)
    (hs : s ∉ (["top", "bottom", "inside", "outside", "left", "right"] : List String)) :
    ∀ (fuel a : ℕ) (og : ℤ), ∃ e, getitem ds rng fuel a og = .error e
  | 0, _, _ => ⟨.recursionError, rfl⟩
  | fuel + 1, a, og => by
    unfold getitem
    cases hrs : resolve_ranges ds rng a og with
    | error e => exact ⟨e, by simp [bind, Except.bind]⟩
    | ok rs =>
      simp only [bind, Except.bind]
      cases hos : get_output_sample ds.targets rs.1 rs.2 with
      | error e => exact ⟨e, rfl⟩
      | ok os =>
        refine ⟨.systemExit, ?_⟩
        dsimp only
        rw [hth, accept_output_unknown os s hs]

theorem mk_wavelet_dataset_unknown_kw (w : Arr3) (targets : List (String × List Vec))
    (tIdx teIdx : List Int) (ss : ℕ) (sh rb training : Bool) (s : String)
    (rng : ℕ → ℕ) (fuel : ℕ)
    (hs : s ∉ (["top", "bottom", "inside", "outside", "left", "right"] : List String)) :
    ∃ e, mk_wavelet_dataset w targets tIdx teIdx ss sh rb training (some s) rng fuel =
      .error e := by
  unfold mk_wavelet_dataset
  rw [init_half_guard_false]
  simp only [Bool.false_eq_true, if_false]
  cases hprep : prepare_data_generator w tIdx teIdx training with
  | error e => exact ⟨e, by simp [bind, Except.bind]⟩
  | ok cms =>
    obtain ⟨cv, m, st⟩ := cms
    simp only [bind, Except.bind]
    obtain ⟨e, hgi⟩ :=
      getitem_unknown_kw ⟨w, targets, cv, ss, sh, rb, some s, m, st⟩ rng s rfl hs fuel 0 0
    rw [hgi]
    exact ⟨e, rfl⟩

/-- **C5.** Constructing the train/test views with a region-filter
keyword outside the recognized set (`top`, `bottom`, `inside`,
`outside`, `left`, `right`) always fails with a Python-level error
(`exit(0)` reached through the dummy sample's `_accept_output` during
construction of the first view, or an earlier error on that path):
no pair of dataset views is ever produced. -/
theorem C5_unknown_region_keyword_fatal (w : Arr3)
    (targets : List (String × List Vec)) (tIdx teIdx : List Int) (ss : ℕ)
    (sh rb : Bool) (s : String) (rng : ℕ → ℕ) (fuel : ℕ)
    (hs : s ∉ (["top", "bottom", "inside", "outside", "left", "right"] : List String)) :
    ∃ e, create_train_and_test_datasets w targets tIdx teIdx ss sh rb (some s) rng fuel =
      .error e := by
  unfold create_train_and_test_datasets
  obtain ⟨e, hmk⟩ :=
    mk_wavelet_dataset_unknown_kw w targets tIdx teIdx ss sh rb true s rng fuel hs
  rw [hmk]
  exact ⟨e, by simp [bind, Except.bind]⟩

/-- Witness for C5 at a concrete configuration with keyword `middle`. -/
theorem C5_unknown_region_keyword_fatal_witness :
    ∃ e, create_train_and_test_datasets [[[0]], [[1]]] [("position", [[0, 0], [1, 1]])]
      [1] [1] 1 false false (some "middle") (fun _ => 0) 1 = .error e :=
  C5_unknown_region_keyword_fatal [[[0]], [[1]]] [("position", [[0, 0], [1, 1]])]
    [1] [1] 1 false false "middle" (fun _ => 0) 1 (by decide)

/-! ### Normalization statistics (C3) -/

theorem pyGet_nonneg_eq (l : List α) (d : α) (i : ℤ) (h0 : 0 ≤ i)
    (hlt : i.toNat < l.length) : pyGet l i = .ok (l.getD i.toNat d) := by
  unfold pyGet
  have hneg : ¬ (i < 0) := by omega
  simp only [hneg, if_false]
  rw [dif_pos ⟨h0, hlt⟩]
  congr 1
  rw [List.getD_eq_getElem l d hlt]
  simp

theorem fancy_nonneg_eq (l : List α) (d : α) :
    ∀ idxs : List Int, (∀ i ∈ idxs, 0 ≤ i ∧ i.toNat < l.length) →
      fancy l idxs = .ok (idxs.map (fun i => l.getD i.toNat d))
  | [], _ => rfl
  | i :: idxs, h => by
    have hi := h i (by simp)
    have ih := fancy_nonneg_eq l d idxs (fun j hj => h j (by simp [hj]))
    simp only [fancy, List.mapM_cons] at ih ⊢
    rw [pyGet_nonneg_eq l d i hi.1 hi.2]
    simp only [bind, Except.bind]
    rw [ih]
    simp [pure, Except.pure]

theorem getD_range_map {β : Type} (n : ℕ) (g : ℕ → β) (k : ℕ) (hk : k < n) (d : β) :
    ((List.range n).map g).getD k d = g k := by
  have hk' : k < ((List.range n).map g).length := by simpa using hk
  rw [List.getD_eq_getElem _ d hk']
  simp

/-- Elementwise access of `np.median(a, axis=0)`. -/
theorem median_axis0_get (a : Arr3) (f c : ℕ)
    (hf : f < (a.headD []).length) (hc : c < ((a.headD []).headD []).length) :
    ((median_axis0 a).getD f []).getD c 0 =
      median (a.map (fun mt => (mt.getD f []).getD c 0)) := by
  unfold median_axis0
  rw [getD_range_map _ _ f hf, getD_range_map _ _ c hc]

theorem zipWith_getD (g : ℚ → ℚ → ℚ) (x y : List ℚ) (k : ℕ)
    (hk : k < x.length) (hk' : k < y.length) :
    (List.zipWith g x y).getD k 0 = g (x.getD k 0) (y.getD k 0) := by
  have hlen : k < (List.zipWith g x y).length := by
    rw [List.length_zipWith]; omega
  rw [List.getD_eq_getElem _ 0 hlen, List.getD_eq_getElem _ 0 hk,
    List.getD_eq_getElem _ 0 hk', List.getElem_zipWith]

theorem zipWith_getD' (g : Vec → Vec → Vec) (x y : Mat) (k : ℕ)
    (hk : k < x.length) (hk' : k < y.length) :
    (List.zipWith g x y).getD k [] = g (x.getD k []) (y.getD k []) := by
  have hlen : k < (List.zipWith g x y).length := by
    rw [List.length_zipWith]; omega
  rw [List.getD_eq_getElem _ [] hlen, List.getD_eq_getElem _ [] hk,
    List.getD_eq_getElem _ [] hk', List.getElem_zipWith]

theorem mat_abs_sub_getD (x m : Mat) (f c : ℕ)
    (hfx : f < x.length) (hfm : f < m.length)
    (hcx : c < (x.getD f []).length) (hcm : c < (m.getD f []).length) :
    ((mat_abs_sub x m).getD f []).getD c 0 =
      |(x.getD f []).getD c 0 - (m.getD f []).getD c 0| := by
  unfold mat_abs_sub
  rw [zipWith_getD' _ _ _ f hfx hfm]
  exact zipWith_getD _ _ _ c hcx hcm

theorem headD_eq_getD (l : List α) (d : α) (h : 0 < l.length) :
    l.headD d = l.getD 0 d := by
  cases l with
  | nil => simp at h
  | cons a t => simp

/-- **C3.** The normalization statistics are computed from the rows of
the wavelet array at the *training* indices only — elementwise medians
(`est_mean`) and medians of absolute deviations from that median
(`est_std`) — and `prepare_data_generator` hands the *same* statistics
to the training view and to the testing view; the testing index set
influences only `cv_indices`, never the statistics. -/
theorem C3_stats_training_only (w : Arr3) (tIdx teIdx : List Int) (F C : ℕ)
    (hne : tIdx ≠ [])
    (hbound : ∀ i ∈ tIdx, 0 ≤ i ∧ i.toNat < w.length)
    (hshape : ∀ row ∈ w, row.length = F ∧ ∀ col ∈ row, col.length = C) :
    ∃ m s,
      prepare_data_generator w tIdx teIdx true = .ok (tIdx, m, s) ∧
      prepare_data_generator w tIdx teIdx false = .ok (teIdx, m, s) ∧
      ∀ f, f < F → ∀ c, c < C →
        (m.getD f []).getD c 0 =
          median (tIdx.map (fun t => ((w.getD t.toNat []).getD f []).getD c 0)) ∧
        (s.getD f []).getD c 0 =
          median (tIdx.map (fun t =>
            |((w.getD t.toNat []).getD f []).getD c 0 - (m.getD f []).getD c 0|)) := by
  have hsel : fancy w tIdx = .ok (tIdx.map (fun i => w.getD i.toNat [])) :=
    fancy_nonneg_eq w [] tIdx hbound
  set sel := tIdx.map (fun i => w.getD i.toNat []) with hsel_def
  have hmem : ∀ row ∈ sel, row ∈ w := by
    intro row hrow
    rw [hsel_def] at hrow
    obtain ⟨i, hi, rfl⟩ := List.mem_map.mp hrow
    have hb := hbound i hi
    rw [List.getD_eq_getElem w [] hb.2]
    exact List.getElem_mem hb.2
  have hselne : sel ≠ [] := by
    rw [hsel_def]
    simpa using hne
  have h0 : 0 < sel.length := List.length_pos.mpr hselne
  have hheadmem : sel.headD [] ∈ sel := by
    rw [headD_eq_getD sel [] h0, List.getD_eq_getElem sel [] h0]
    exact List.getElem_mem h0
  have hrowlen : ∀ row ∈ sel, row.length = F := fun row hr => (hshape row (hmem row hr)).1
  have hFhead : (sel.headD []).length = F := hrowlen _ hheadmem
  have hcollen : ∀ row ∈ sel, ∀ col ∈ row, col.length = C :=
    fun row hr => (hshape row (hmem row hr)).2
  set m := median_axis0 sel with hm_def
  refine ⟨m, median_axis0 (sel.map (fun row => mat_abs_sub row m)), ?_, ?_, ?_⟩
  · unfold prepare_data_generator
    rw [hsel]
    simp [hm_def, bind, Except.bind, pure, Except.pure]
  · unfold prepare_data_generator
    rw [hsel]
    simp [hm_def, bind, Except.bind, pure, Except.pure]
  · intro f hf c hc
    have hrowget : ∀ row ∈ sel, ∀ fr, fr < F → (row.getD fr []).length = C := by
      intro row hr fr hfr
      have hfr' : fr < row.length := by rw [hrowlen row hr]; exact hfr
      refine hcollen row hr _ ?_
      rw [List.getD_eq_getElem row [] hfr']
      exact List.getElem_mem hfr'
    have hChead : ((sel.headD []).headD []).length = C := by
      have hF0 : 0 < (sel.headD []).length := by omega
      have : (sel.headD []).headD [] = (sel.headD []).getD 0 [] := by
        cases hr : sel.headD [] with
        | nil => rw [hr] at hF0; simp at hF0
        | cons col rest => simp
      rw [this]
      exact hrowget _ hheadmem 0 (by omega)
    have hm := median_axis0_get sel f c (by omega) (by omega)
    have hmlenF : m.length = F := by
      rw [hm_def]
      simp only [median_axis0]
      rw [List.length_map, List.length_range]
      exact hFhead
    have hmrow : ∀ fr, fr < F → (m.getD fr []).length = C := by
      intro fr hfr
      rw [hm_def]
      simp only [median_axis0]
      rw [getD_range_map _ _ fr (by rw [hFhead]; exact hfr)]
      rw [List.length_map, List.length_range]
      exact hChead
    constructor
    · rw [hm, hsel_def, List.map_map]
      rfl
    · set sel2 := sel.map (fun row => mat_abs_sub row m) with hsel2_def
      have h02 : 0 < sel2.length := by
        rw [hsel2_def]
        simpa using h0
      have hs2head : sel2.headD [] = mat_abs_sub (sel.headD []) m := by
        rw [headD_eq_getD sel2 [] h02, List.getD_eq_getElem sel2 [] h02,
          headD_eq_getD sel [] h0, List.getD_eq_getElem sel [] h0]
        exact List.getElem_map _
      have habs_len : ∀ row ∈ sel, (mat_abs_sub row m).length = F := by
        intro row hr
        unfold mat_abs_sub
        rw [List.length_zipWith, hrowlen row hr, hmlenF]
        omega
      have habs_row : ∀ row ∈ sel, ∀ fr, fr < F →
          ((mat_abs_sub row m).getD fr []).length = C := by
        intro row hr fr hfr
        unfold mat_abs_sub
        rw [zipWith_getD' _ _ _ fr (by rw [hrowlen row hr]; exact hfr)
          (by rw [hmlenF]; exact hfr)]
        rw [List.length_zipWith, hrowget row hr fr hfr, hmrow fr hfr]
        omega
      have hF2 : (sel2.headD []).length = F := by
        rw [hs2head]
        exact habs_len _ hheadmem
      have hC2 : ((sel2.headD []).headD []).length = C := by
        have hF0 : 0 < (sel2.headD []).length := by omega
        have hh : (sel2.headD []).headD [] = (sel2.headD []).getD 0 [] := by
          cases hr : sel2.headD [] with
          | nil => rw [hr] at hF0; simp at hF0
          | cons col rest => simp
        rw [hh, hs2head]
        exact habs_row _ hheadmem 0 (by omega)
      rw [median_axis0_get sel2 f c (by omega) (by omega)]
      congr 1
      rw [hsel2_def, List.map_map]
      have hmapeq : ∀ row ∈ sel,
          ((mat_abs_sub row m).getD f []).getD c 0 =
          |(row.getD f []).getD c 0 - (m.getD f []).getD c 0| := by
        intro row hr
        exact mat_abs_sub_getD row m f c
          (by rw [hrowlen row hr]; exact hf) (by rw [hmlenF]; exact hf)
          (by rw [hrowget row hr f hf]; exact hc) (by rw [hmrow f hf]; exact hc)
      calc (sel.map ((fun mt => (mt.getD f []).getD c 0) ∘ fun row => mat_abs_sub row m))
          = sel.map (fun row => |(row.getD f []).getD c 0 - (m.getD f []).getD c 0|) :=
            List.map_congr_left (fun row hr => hmapeq row hr)
        _ = tIdx.map (fun t =>
              |((w.getD t.toNat []).getD f []).getD c 0 - (m.getD f []).getD c 0|) := by
            rw [hsel_def, List.map_map]
            rfl

/-- Witness for C3 at a concrete recording (3 time steps, 2 bands, 2
channels; training indices 0 and 1, testing index 2). -/
theorem C3_stats_training_only_witness :
    ∃ m s,
      prepare_data_generator
        ([[[1, 2], [3, 4]], [[5, 6], [7, 8]], [[9, 10], [11, 12]]] : Arr3)
        [0, 1] [2] true = .ok ([0, 1], m, s) ∧
      prepare_data_generator
        ([[[1, 2], [3, 4]], [[5, 6], [7, 8]], [[9, 10], [11, 12]]] : Arr3)
        [0, 1] [2] false = .ok ([2], m, s) ∧
      ∀ f, f < 2 → ∀ c, c < 2 →
        (m.getD f []).getD c 0 =
          median (([0, 1] : List ℤ).map (fun t =>
            ((([[[1, 2], [3, 4]], [[5, 6], [7, 8]], [[9, 10], [11, 12]]] : Arr3).getD
              t.toNat []).getD f []).getD c 0)) ∧
        (s.getD f []).getD c 0 =
          median (([0, 1] : List ℤ).map (fun t =>
            |((([[[1, 2], [3, 4]], [[5, 6], [7, 8]], [[9, 10], [11, 12]]] : Arr3).getD
              t.toNat []).getD f []).getD c 0 - (m.getD f []).getD c 0|)) :=
  C3_stats_training_only
    [[[1, 2], [3, 4]], [[5, 6], [7, 8]], [[9, 10], [11, 12]]] [0, 1] [2] 2 2
    (by decide) (by decide) (by decide)

/-! ### Unguarded division by the MAD statistics (C10) -/

theorem fdiv_zero (x : ℚ) : fdiv x 0 = none := by
  simp [fdiv]

theorem getD_map' {α β : Type} (g : α → β) (l : List α) (k : ℕ) (hk : k < l.length)
    (d : α) (d' : β) : (l.map g).getD k d' = g (l.getD k d) := by
  have hk' : k < (l.map g).length := by simpa using hk
  rw [List.getD_eq_getElem _ _ hk', List.getD_eq_getElem _ _ hk, List.getElem_map]

theorem transpose201_get {α : Type} (a : List (List (List α))) (d : α) (t f c : ℕ)
    (ht : t < a.length) (hf : f < (a.headD []).length)
    (hc : c < ((a.headD []).headD []).length) :
    ((((transpose201 a d).getD c []).getD t []).getD f d) =
      ((a.getD t []).getD f []).getD c d := by
  unfold transpose201
  rw [getD_range_map _ _ c hc, getD_range_map _ _ t ht, getD_range_map _ _ f hf]

theorem norm_mat_length (row m s : Mat) :
    (norm_mat row m s).length = min row.length (min m.length s.length) := by
  unfold norm_mat
  rw [List.length_zipWith, List.length_zip]

/-- Elementwise access of the broadcast `(row - est_mean) / est_std`. -/
theorem norm_mat_entry (row m s : Mat) (f c : ℕ)
    (hfr : f < row.length) (hfm : f < m.length) (hfs : f < s.length)
    (hcr : c < (row.getD f []).length) (hcm : c < (m.getD f []).length)
    (hcs : c < (s.getD f []).length) :
    ((norm_mat row m s).getD f []).getD c none =
      fdiv ((row.getD f []).getD c 0 - (m.getD f []).getD c 0)
        ((s.getD f []).getD c 0) := by
  unfold norm_mat
  have hfz : f < (List.zip m s).length := by rw [List.length_zip]; omega
  have hlen : f < (List.zipWith
      (fun xr ms_r => List.zipWith (fun x ms => fdiv (x - ms.1) ms.2) xr
        (List.zip ms_r.1 ms_r.2)) row (List.zip m s)).length := by
    rw [List.length_zipWith, List.length_zip]
    omega
  rw [List.getD_eq_getElem _ [] hlen, List.getElem_zipWith]
  have hzf : (List.zip m s)[f] = ((m.getD f []), (s.getD f [])) := by
    rw [List.getElem_zip]
    rw [List.getD_eq_getElem m [] hfm, List.getD_eq_getElem s [] hfs]
  rw [hzf]
  have hcz : c < (List.zip (m.getD f []) (s.getD f [])).length := by
    rw [List.length_zip]
    omega
  have hlen2 : c < (List.zipWith (fun x ms => fdiv (x - ms.1) ms.2) row[f]
      (List.zip (m.getD f []) (s.getD f []))).length := by
    rw [List.length_zipWith, List.length_zip, List.getD_eq_getElem row [] hfr] at *
    omega
  rw [List.getD_eq_getElem _ none hlen2, List.getElem_zipWith]
  have hzc : (List.zip (m.getD f []) (s.getD f []))[c] =
      ((m.getD f []).getD c 0, (s.getD f []).getD c 0) := by
    rw [List.getElem_zip]
    rw [List.getD_eq_getElem _ (0 : ℚ) hcm, List.getD_eq_getElem _ (0 : ℚ) hcs]
  rw [hzc]
  have hcr' : c < row[f].length := by
    rw [List.getD_eq_getElem row [] hfr] at hcr
    exact hcr
  rw [List.getD_eq_getElem row [] hfr, List.getD_eq_getElem _ (0 : ℚ) hcr']

/-- The `fr`-th row of the broadcast normalization. -/
theorem norm_mat_row (row m s : Mat) (fr : ℕ)
    (hfr : fr < row.length) (hfm : fr < m.length) (hfs : fr < s.length) :
    (norm_mat row m s).getD fr [] =
      List.zipWith (fun x ms => fdiv (x - ms.1) ms.2) (row.getD fr [])
        (List.zip (m.getD fr []) (s.getD fr [])) := by
  unfold norm_mat
  have hfz : fr < (List.zip m s).length := by
    rw [List.length_zip]
    omega
  have hlen : fr < (List.zipWith
      (fun xr ms_r => List.zipWith (fun x ms => fdiv (x - ms.1) ms.2) xr
        (List.zip ms_r.1 ms_r.2)) row (List.zip m s)).length := by
    rw [List.length_zipWith, List.length_zip]
    omega
  rw [List.getD_eq_getElem _ [] hlen, List.getElem_zipWith]
  have hzf : (List.zip m s)[fr] = ((m.getD fr []), (s.getD fr [])) := by
    rw [List.getElem_zip]
    rw [List.getD_eq_getElem m [] hfm, List.getD_eq_getElem s [] hfs]
  rw [hzf, List.getD_eq_getElem row [] hfr]

theorem transpose201_row_lengths {α : Type} (a : List (List (List α))) (d : α) (c : ℕ)
    (hc : c < ((a.headD []).headD []).length) :
    ((transpose201 a d).getD c []).length = a.length ∧
    ∀ t, t < a.length → (((transpose201 a d).getD c []).getD t []).length =
      (a.headD []).length := by
  unfold transpose201
  rw [getD_range_map _ _ c hc]
  constructor
  · simp
  · intro t ht
    rw [getD_range_map _ _ t ht]
    simp

/-- **C10.** `get_input_sample` divides by `est_std` with no zero
guard: whenever the stored MAD at a (frequency, channel) pair is zero,
the call still succeeds (no error at any interface — IEEE division by
zero only produces non-finite floats) and every time step of the
returned window holds a non-finite value (`none`) at that coordinate
(after the transpose, at `out[channel][t][frequency]`). -/
theorem C10_zero_mad_nonfinite (w : Arr3) (est_mean est_std : Mat) (cr : List Int)
    (F C : ℕ)
    (hbound : ∀ i ∈ cr, 0 ≤ i ∧ i.toNat < w.length)
    (hshape : ∀ row ∈ w, row.length = F ∧ ∀ col ∈ row, col.length = C)
    (hmF : est_mean.length = F)
    (hmrow : ∀ fr, fr < F → (est_mean.getD fr []).length = C)
    (hsF : est_std.length = F)
    (hsrow : ∀ fr, fr < F → (est_std.getD fr []).length = C)
    (f c : ℕ) (hf : f < F) (hc : c < C)
    (hzero : (est_std.getD f []).getD c 0 = 0) :
    ∃ out, get_input_sample w est_mean est_std cr = .ok out ∧
      ∀ t, t < cr.length →
        ((out.getD c []).getD t []).getD f [] = [none] := by
  have hsel : fancy w cr = .ok (cr.map (fun i => w.getD i.toNat [])) :=
    fancy_nonneg_eq w [] cr hbound
  set sel := cr.map (fun i => w.getD i.toNat []) with hsel_def
  have hmem : ∀ row ∈ sel, row ∈ w := by
    intro row hrow
    rw [hsel_def] at hrow
    obtain ⟨i, hi, rfl⟩ := List.mem_map.mp hrow
    have hb := hbound i hi
    rw [List.getD_eq_getElem w [] hb.2]
    exact List.getElem_mem hb.2
  have hrowlen : ∀ row ∈ sel, row.length = F := fun row hr => (hshape row (hmem row hr)).1
  have hrowget : ∀ row ∈ sel, ∀ fr, fr < F → (row.getD fr []).length = C := by
    intro row hr fr hfr
    have hfr' : fr < row.length := by rw [hrowlen row hr]; exact hfr
    refine (hshape row (hmem row hr)).2 _ ?_
    rw [List.getD_eq_getElem row [] hfr']
    exact List.getElem_mem hfr'
  set nrm := sel.map (fun row => norm_mat row est_mean est_std) with hnrm_def
  refine ⟨(transpose201 nrm none).map (fun p => p.map (fun q => q.map (fun x => [x]))),
    ?_, ?_⟩
  · unfold get_input_sample
    rw [hsel]
    simp only [bind, Except.bind]
  · intro t ht
    have hselT : sel.length = cr.length := by rw [hsel_def]; simp
    have hT : t < sel.length := by omega
    have hnrmT : nrm.length = sel.length := by rw [hnrm_def]; simp
    have hheadnrm : nrm.headD [] = norm_mat (sel.headD []) est_mean est_std := by
      have h0 : 0 < sel.length := by omega
      have h0' : 0 < nrm.length := by omega
      rw [headD_eq_getD nrm [] h0', List.getD_eq_getElem nrm [] h0',
        headD_eq_getD sel [] h0, List.getD_eq_getElem sel [] h0]
      exact List.getElem_map _
    have hheadmem : sel.headD [] ∈ sel := by
      have h0 : 0 < sel.length := by omega
      rw [headD_eq_getD sel [] h0, List.getD_eq_getElem sel [] h0]
      exact List.getElem_mem h0
    have hFa : (nrm.headD []).length = F := by
      rw [hheadnrm, norm_mat_length, hrowlen _ hheadmem, hmF, hsF]
      omega
    have hCa : ((nrm.headD []).headD []).length = C := by
      have hF0 : 0 < (nrm.headD []).length := by omega
      rw [headD_eq_getD _ [] hF0, hheadnrm]
      rw [norm_mat_row _ _ _ 0 (by rw [hrowlen _ hheadmem]; omega) (by omega) (by omega)]
      rw [List.length_zipWith, List.length_zip]
      rw [hrowget _ hheadmem 0 (by omega), hmrow 0 (by omega), hsrow 0 (by omega)]
      omega
    have hFa : f < (nrm.headD []).length := by
      rw [hheadnrm, norm_mat_length, hrowlen _ hheadmem, hmF, hsF]
      omega
    have hAlen : c < (transpose201 nrm none).length := by
      unfold transpose201
      rw [List.length_map, List.length_range, hCa]
      exact hc
    have hrl := transpose201_row_lengths nrm none c (by rw [hCa]; exact hc)
    have htn : t < nrm.length := by omega
    rw [getD_map' _ _ c hAlen [] []]
    rw [getD_map' _ _ t (by rw [hrl.1]; omega) [] []]
    rw [getD_map' _ _ f (by rw [hrl.2 t htn]; exact hFa) none []]
    rw [transpose201_get nrm none t f c htn hFa (by rw [hCa]; exact hc)]
    congr 1
    rw [hnrm_def, getD_map' _ _ t hT [] []]
    have hselmem : sel.getD t [] ∈ sel := by
      rw [List.getD_eq_getElem sel [] hT]
      exact List.getElem_mem hT
    rw [norm_mat_entry (sel.getD t []) est_mean est_std f c
      (by rw [hrowlen _ hselmem]; exact hf) (by omega) (by omega)
      (by rw [hrowget _ hselmem f hf]; exact hc)
      (by rw [hmrow f hf]; exact hc) (by rw [hsrow f hf]; exact hc)]
    rw [hzero, fdiv_zero]

/-- Witness for C10: a single-band, single-channel recording whose MAD
is zero makes every normalized value at that coordinate non-finite,
with the call still succeeding. -/
theorem C10_zero_mad_nonfinite_witness :
    ∃ out, get_input_sample ([[[1]]] : Arr3) [[0]] [[0]] [0] = .ok out ∧
      ∀ t, t < ([0] : List ℤ).length →
        ((out.getD 0 []).getD t []).getD 0 [] = [none] :=
  C10_zero_mad_nonfinite [[[1]]] [[0]] [[0]] [0] 1 1 (by decide) (by decide)
    (by decide) (fun fr hfr => by
      have h : fr = 0 := by omega
      subst h
      decide)
    (by decide) (fun fr hfr => by
      have h : fr = 0 := by omega
      subst h
      decide)
    0 0 (by decide) (by decide) (by decide)

end RSOpt
